import Mathlib

/-!
# qtnetworkng `io_utils.cpp`: byte streams, `readall` and `sendfile`

A shallow embedding of `src/src/io_utils.cpp`.

Modelling conventions.

* A `QByteArray` is a list of bytes; `QByteArray::size()` is its length as an
  integer.  Qt 5 stores that length in an `int`, so the theorems assume
  `length ≤ INT32_MAX` of the byte arrays they are given.
* `qint32` and `qint64` values are mathematical integers.  A signed 32-bit
  computation of the source whose exact result does not fit the type is
  undefined behaviour in C++ and makes the modelled call fault.  The 64-bit
  counter `total` of `sendfile` is not range-checked.
* A `char *` argument is modelled by the bytes of the object it points into.
  `memcpy` faults when its byte count, converted to `size_t`, reaches outside
  the source or the destination object.  A `QByteArray` of size `n` offers its
  `n` bytes; the terminator Qt keeps behind them is not usable space.
* A call returns `Option`: `none` is a fault (undefined behaviour: an
  out-of-bounds access or a signed overflow).  The two loops take a fuel
  argument that bounds the number of iterations; `Run.nofuel` reports that the
  bound was reached, `Run.fault` that a call faulted.
* Memory that the source leaves uninitialised is filled with zero bytes; no
  theorem below depends on these values.
* Allocation failure is not modelled.
-/

namespace QtNetworkNg

abbrev Byte := UInt8

abbrev QByteArray := List Byte

def INT32_MAX : Int := 2147483647

def INT32_MIN : Int := -2147483648

def INT64_MAX : Int := 9223372036854775807

/-- The value is representable as a `qint32`. -/
def FitsInt32 (x : Int) : Prop := INT32_MIN ≤ x ∧ x ≤ INT32_MAX

instance (x : Int) : Decidable (FitsInt32 x) := by
  unfold FitsInt32; infer_instance

/-- Contents of freshly allocated, uninitialised memory of `n` bytes
(`Qt::Uninitialized`, a local `char` array, the tail after `resize`). -/
def uninitialized (n : Nat) : List Byte := List.replicate n 0

/-- Model of `memcpy(dst + dstOff, src + srcOff, static_cast<size_t>(n))`.
A negative `n` converts to a count of at least `2^63` bytes and faults, as
does any range that leaves `dst` or `src`.  A count of zero touches no
memory. -/
def memcpy (dst : List Byte) (dstOff : Int) (src : List Byte) (srcOff : Int)
    (n : Int) : Option (List Byte) :=
  if n = 0 then some dst
  else if n < 0 then none
  else if dstOff < 0 ∨ srcOff < 0 then none
  else if (dst.length : Int) < dstOff + n ∨ (src.length : Int) < srcOff + n then none
  else some (dst.take dstOff.toNat ++ (src.drop srcOff.toNat).take n.toNat
              ++ dst.drop (dstOff + n).toNat)

/-- Model of `QByteArray::resize(int)`: shrinking truncates, growing appends
uninitialised bytes. -/
def QByteArray.resize (b : QByteArray) (n : Int) : QByteArray :=
  if n ≤ (b.length : Int) then b.take n.toNat
  else b ++ uninitialized (n.toNat - b.length)

/-- Model of `QByteArray::append(const char *s, int len)` for `len > 0`:
`len` bytes are read from the object `s` points into.  Reading past that
object faults, and so does a result longer than an `int` can count. -/
def QByteArray.append (b : QByteArray) (s : List Byte) (len : Int) : Option QByteArray :=
  if (s.length : Int) < len then none
  else if INT32_MAX < (b.length : Int) + len then none
  else some (b ++ s.take len.toNat)

/-- Model of `QByteArray::remove(int pos, int len)` at `pos = 0`: nothing is
removed when `len ≤ 0`, everything when `len` reaches the size. -/
def QByteArray.remove0 (b : QByteArray) (len : Int) : QByteArray :=
  b.drop len.toNat

/-- State of a memory-backed stream (`class BytesIOPrivate`): the buffer and
the cursor shared by `read` and `write`. -/
structure BytesIOPrivate where
  buf : QByteArray
  pos : Int
deriving DecidableEq, Repr

namespace BytesIO

/-- `BytesIO::BytesIO(const QByteArray &buf)`: pre-seeded buffer, cursor 0. -/
def ofBytes (buf : QByteArray) : BytesIOPrivate := ⟨buf, 0⟩

/-- `BytesIO::BytesIO()`: empty buffer, cursor 0. -/
def empty : BytesIOPrivate := ⟨[], 0⟩

/-- `BytesIO::read(char *data, qint32 size)`.  `data` is the content of the
caller's buffer; the result is the returned count, the buffer after the call
and the stream after the call. -/
def read (d : BytesIOPrivate) (data : List Byte) (size : Int) :
    Option (Int × List Byte × BytesIOPrivate) :=
  if ¬ FitsInt32 ((d.buf.length : Int) - d.pos) then none
  else
    let leftBytes : Int := max ((d.buf.length : Int) - d.pos) 0
    let readBytes : Int := min leftBytes size
    match memcpy data 0 d.buf d.pos readBytes with
    | none => none
    | some data1 =>
      if ¬ FitsInt32 (d.pos + readBytes) then none
      else some (readBytes, data1, { d with pos := d.pos + readBytes })

/-- `BytesIO::write(const char *data, qint32 size)`.  `data` is the content
of the object the argument points into; the result is the returned count and
the stream after the call. -/
def write (d : BytesIOPrivate) (data : List Byte) (size : Int) :
    Option (Int × BytesIOPrivate) :=
  if ¬ FitsInt32 (d.pos + size) then none
  else
    let buf1 : QByteArray :=
      if (d.buf.length : Int) < d.pos + size then d.buf.resize (d.pos + size) else d.buf
    match memcpy buf1 d.pos data 0 size with
    | none => none
    | some buf2 => some (size, { buf := buf2, pos := d.pos + size })

/-- `BytesIO::size()`: the buffer length, whatever the cursor. -/
def size (d : BytesIOPrivate) : Int := (d.buf.length : Int)

/-- `BytesIO::data()`: the buffer. -/
def data (d : BytesIOPrivate) : QByteArray := d.buf

end BytesIO

/-- Outcome of a modelled run: a returned value, a fault (undefined
behaviour in the source), or the iteration bound reached. -/
inductive Run (α : Type) where
  | ret (a : α)
  | fault
  | nofuel
deriving DecidableEq, Repr

/-- One call made on a stream through the `FileLike` interface.  A `read`
records the requested size, the returned count and the bytes the caller took
out of its buffer; a `write` records the bytes offered, the size passed and
the returned count. -/
inductive Call where
  | read (size : Int) (ret : Int) (got : List Byte)
  | write (data : List Byte) (size : Int) (ret : Int)
deriving DecidableEq, Repr

/-- The virtual interface `FileLike` over a backend state `σ`.  `read` takes
the content of the caller's buffer and the requested size, and gives the
returned count, the buffer after the call and the new state; `write` takes the
bytes behind the pointer and the size.  `none` is a fault inside the call. -/
structure FileLike (σ : Type) where
  read : σ → List Byte → Int → Option (Int × List Byte × σ)
  write : σ → List Byte → Int → Option (Int × σ)
  size : σ → Int

/-- The memory-backed stream as a `FileLike` (`class BytesIO: public FileLike`). -/
def BytesIO.fileLike : FileLike BytesIOPrivate where
  read := BytesIO.read
  write := BytesIO.write
  size := BytesIO.size

/-- `FileLike::bytes(const QByteArray &data)`: a memory-backed stream seeded
with `data`. -/
def FileLike.bytes (data : QByteArray) : BytesIOPrivate := BytesIO.ofBytes data

/-- What `readall` leaves behind: the returned array, the flag behind `ok`
(`none` for a null pointer), the stream and the calls made on it. -/
structure ReadAllResult (σ : Type) where
  data : QByteArray
  ok : Option Bool
  file : σ
  calls : List Call
deriving DecidableEq, Repr

/-- The `while (true)` loop of `FileLike::readall` (lines 25-32).  `s` is the
size reported before the loop, `buf` the local block, `data` the array built
so far. -/
def FileLike.readallLoop {σ : Type} (f : FileLike σ) (s : Int) (ok : Option Bool) :
    Nat → σ → List Byte → QByteArray → List Call → Run (ReadAllResult σ)
  | 0, _, _, _, _ => Run.nofuel
  | fuel + 1, st, buf, data, calls =>
    match f.read st buf (1024 * 8) with
    | none => Run.fault
    | some (readBytes, buf1, st1) =>
      if readBytes ≤ 0 then
        Run.ret
          { data := data
            ok := ok.map (fun _ => decide (s < 0 ∨ (data.length : Int) = s))
            file := st1
            calls := calls ++ [Call.read (1024 * 8) readBytes []] }
      else
        match data.append buf1 readBytes with
        | none => Run.fault
        | some data1 =>
          FileLike.readallLoop f s ok fuel st1 buf1 data1
            (calls ++ [Call.read (1024 * 8) readBytes (buf1.take readBytes.toNat)])

/-- `FileLike::readall(bool *ok)`.  `ok` is the value behind the pointer on
entry, `none` when the pointer is null. -/
def FileLike.readall {σ : Type} (f : FileLike σ) (st : σ) (ok : Option Bool) (fuel : Nat) :
    Run (ReadAllResult σ) :=
  let s : Int := f.size st
  if INT32_MAX ≤ s then
    Run.ret { data := [], ok := ok.map (fun _ => false), file := st, calls := [] }
  else if s = 0 then
    Run.ret { data := [], ok := ok, file := st, calls := [] }
  else
    FileLike.readallLoop f s ok fuel st (uninitialized (1024 * 8)) [] []

/-- Local state of `sendfile` at the head of an iteration: the two streams,
the holding buffer `buf`, the scratch block `t`, `total`, `eof`, and the calls
made so far. -/
structure SendState (σ τ : Type) where
  input : σ
  output : τ
  buf : QByteArray
  t : List Byte
  total : Int
  eof : Bool
  calls : List Call
deriving DecidableEq, Repr

/-- How the first half of an iteration of `sendfile` ends. -/
inductive ReadPhase (σ τ : Type) where
  | fault
  | abort (s : SendState σ τ)
  | next (s : SendState σ τ)
deriving DecidableEq, Repr

/-- `remain` of `sendfile` (lines 181-184). -/
def sendfileRemain {σ τ : Type} (size : Int) (s : SendState σ τ) : Int :=
  if 0 < size then max 0 (size - (s.buf.length : Int) - s.total) else INT64_MAX

/-- The size of the read an iteration asks for (lines 186 and 188). -/
def sendfileBlock {σ τ : Type} (size : Int) (s : SendState σ τ) : Int :=
  min (1024 * 16 - (s.buf.length : Int)) (sendfileRemain size s)

/-- First half of an iteration of `sendfile` (lines 181-199): the optional
read into the scratch block. -/
def sendfileRead {σ τ : Type} (inF : FileLike σ) (size : Int) (s : SendState σ τ) :
    ReadPhase σ τ :=
  if 0 < sendfileRemain size s then
    if s.eof = false ∧ 1024 * 8 < 1024 * 16 - (s.buf.length : Int) then
      let nextBlockSize : Int := sendfileBlock size s
      match inF.read s.input s.t nextBlockSize with
      | none => ReadPhase.fault
      | some (readBytes, t1, in1) =>
        if readBytes < 0 then
          ReadPhase.abort
            { s with input := in1, t := t1,
                     calls := s.calls ++ [Call.read nextBlockSize readBytes []] }
        else if 0 < readBytes then
          match s.buf.append t1 readBytes with
          | none => ReadPhase.fault
          | some buf1 =>
            ReadPhase.next
              { s with input := in1, t := t1, buf := buf1, total := s.total + readBytes,
                       calls := s.calls ++
                         [Call.read nextBlockSize readBytes (t1.take readBytes.toNat)] }
        else
          ReadPhase.next
            { s with input := in1, t := t1, eof := true,
                     calls := s.calls ++ [Call.read nextBlockSize readBytes []] }
    else ReadPhase.next s
  else ReadPhase.next s

/-- The `while (true)` loop of `sendfile` (lines 180-209), with `size` already
resolved. -/
def sendfileLoop {σ τ : Type} (inF : FileLike σ) (outF : FileLike τ) (size : Int) :
    Nat → SendState σ τ → Run (Bool × SendState σ τ)
  | 0, _ => Run.nofuel
  | fuel + 1, s =>
    match sendfileRead inF size s with
    | ReadPhase.fault => Run.fault
    | ReadPhase.abort s1 => Run.ret (false, s1)
    | ReadPhase.next s1 =>
      if s1.buf.isEmpty then
        Run.ret (decide (size < 0 ∨ s1.total = size), s1)
      else
        match outF.write s1.output s1.buf (s1.buf.length : Int) with
        | none => Run.fault
        | some (writtenBytes, out1) =>
          let s2 : SendState σ τ :=
            { s1 with output := out1,
                      calls := s1.calls ++ [Call.write s1.buf (s1.buf.length : Int) writtenBytes] }
          if writtenBytes ≤ 0 then Run.ret (false, s2)
          else sendfileLoop inF outF size fuel { s2 with buf := s2.buf.remove0 writtenBytes }

/-- What `sendfile` leaves behind: the returned flag, the two stream handles
and the calls made on them. -/
structure SendResult (σ τ : Type) where
  result : Bool
  inputFile : Option σ
  outputFile : Option τ
  calls : List Call
deriving DecidableEq, Repr

/-- The locals of `sendfile` when the loop is entered (lines 176-179). -/
def sendfileInit {σ τ : Type} (i : σ) (o : τ) : SendState σ τ :=
  { input := i, output := o, buf := [], t := uninitialized (1024 * 8),
    total := 0, eof := false, calls := [] }

/-- `sendfile(inputFile, outputFile, size)`.  A handle is `none` when the
shared pointer is null. -/
def sendfile {σ τ : Type} (inF : FileLike σ) (outF : FileLike τ)
    (inputFile : Option σ) (outputFile : Option τ) (size : Int) (fuel : Nat) :
    Run (SendResult σ τ) :=
  match inputFile, outputFile with
  | some i, some o =>
    let size1 : Int := if size < 0 then inF.size i else size
    if size < 0 ∧ size1 = 0 then
      Run.ret { result := true, inputFile := some i, outputFile := some o, calls := [] }
    else
      match sendfileLoop inF outF size1 fuel (sendfileInit i o) with
      | Run.ret (b, s) =>
        Run.ret { result := b, inputFile := some s.input, outputFile := some s.output,
                  calls := s.calls }
      | Run.fault => Run.fault
      | Run.nofuel => Run.nofuel
  | _, _ =>
    Run.ret { result := false, inputFile := inputFile, outputFile := outputFile, calls := [] }

/-- A stream that only reports a size: it has no content, reads give
end-of-stream and writes are refused.  Used as a concrete instance. -/
def sizeOnly (s : Int) : FileLike Unit where
  read := fun _ data _ => some (0, data, ())
  write := fun _ _ _ => some (0, ())
  size := fun _ => s

/-- A destination whose `write` always returns 0; its state counts the calls. -/
def refusing : FileLike Nat where
  read := fun n data _ => some (0, data, n)
  write := fun n _ _ => some (0, n + 1)
  size := fun _ => -1

/-- A source whose `read` always returns -1 and stores nothing; its state
counts the calls. -/
def failing : FileLike Nat where
  read := fun n data _ => some (-1, data, n + 1)
  write := fun n _ _ => some (-1, n)
  size := fun _ => -1

/-- The buffer a write of the first `k` bytes of `D` at cursor `c` leaves
behind: the old buffer, extended to `c + k` bytes when it is shorter, with the
bytes of `D` stored at `c`. -/
def writtenBuf (buf : QByteArray) (c : Nat) (D : List Byte) (k : Nat) : QByteArray :=
  (buf ++ uninitialized (c + k - buf.length)).take c ++ D.take k
    ++ (buf ++ uninitialized (c + k - buf.length)).drop (c + k)

/-- A memory-backed stream whose `size()` reports `s` instead of the buffer
length (a backend that misreports its size).  Used as a concrete instance. -/
def misreporting (s : Int) : FileLike BytesIOPrivate where
  read := BytesIO.read
  write := BytesIO.write
  size := fun _ => s

/-- The call is a `read` that returned a negative value. -/
def Call.isFailedRead : Call → Bool
  | Call.read _ ret _ => decide (ret < 0)
  | Call.write _ _ _ => false

/-- The bytes the caller took from the source, in order: the concatenation of
what the `read` calls delivered. -/
def bytesRead : List Call → List Byte
  | [] => []
  | Call.read _ _ got :: cs => got ++ bytesRead cs
  | Call.write _ _ _ :: cs => bytesRead cs

/-- The bytes the destination accepted, in order: of each `write`, the first
`ret` bytes of what was offered. -/
def bytesAccepted : List Call → List Byte
  | [] => []
  | Call.read _ _ _ :: cs => bytesAccepted cs
  | Call.write data _ ret :: cs => data.take ret.toNat ++ bytesAccepted cs

/-- The sizes requested by the `read` calls, in order. -/
def requestedSizes : List Call → List Int
  | [] => []
  | Call.read size _ _ :: cs => size :: requestedSizes cs
  | Call.write _ _ _ :: cs => requestedSizes cs

/-- One full iteration of the loop of `sendfile` (lines 181-208) when the loop
goes on: the state at the head of the next iteration.  `none` when the
iteration returns or faults. -/
def sendfileNext {σ τ : Type} (inF : FileLike σ) (outF : FileLike τ) (size : Int)
    (s : SendState σ τ) : Option (SendState σ τ) :=
  match sendfileRead inF size s with
  | ReadPhase.next s1 =>
    if s1.buf.isEmpty then none
    else
      match outF.write s1.output s1.buf (s1.buf.length : Int) with
      | none => none
      | some (writtenBytes, out1) =>
        if writtenBytes ≤ 0 then none
        else
          some { s1 with output := out1,
                         calls := s1.calls ++
                           [Call.write s1.buf (s1.buf.length : Int) writtenBytes],
                         buf := s1.buf.remove0 writtenBytes }
  | _ => none

/-- The state at the head of iteration `n` of the loop of `sendfile` entered
in state `s`; `none` when the loop has ended before. -/
def sendfileReach {σ τ : Type} (inF : FileLike σ) (outF : FileLike τ) (size : Int) :
    Nat → SendState σ τ → Option (SendState σ τ)
  | 0, s => some s
  | n + 1, s =>
    match sendfileNext inF outF size s with
    | some s2 => sendfileReach inF outF size n s2
    | none => none

/-- The number of bytes of a memory stream between its cursor and the end of
its buffer. -/
def BytesIO.unread (d : BytesIOPrivate) : Nat := ((d.buf.length : Int) - d.pos).toNat

/-- A call on a memory stream: a `read` into a caller's buffer `data` with a
requested size, or a `write` of the bytes `data` with a size. -/
inductive BytesOp where
  | read (data : List Byte) (size : Int)
  | write (data : List Byte) (size : Int)
deriving DecidableEq, Repr

/-- The size argument of a call. -/
def BytesOp.size : BytesOp → Int
  | BytesOp.read _ size => size
  | BytesOp.write _ size => size

/-- A sequence of calls on a memory stream, one after the other; `none` as
soon as a call faults. -/
def BytesIO.run : BytesIOPrivate → List BytesOp → Option BytesIOPrivate
  | d, [] => some d
  | d, BytesOp.read data size :: ops =>
    match BytesIO.read d data size with
    | none => none
    | some (_, _, d1) => BytesIO.run d1 ops
  | d, BytesOp.write data size :: ops =>
    match BytesIO.write d data size with
    | none => none
    | some (_, d1) => BytesIO.run d1 ops

/-- The state a `write` that returned `w` leaves: the destination and the
calls are updated and `w` bytes leave the front of the holding buffer (none
when `w ≤ 0`). -/
def afterWrite {σ τ : Type} (s1 : SendState σ τ) (w : Int) (out1 : τ) : SendState σ τ :=
  { s1 with output := out1,
            calls := s1.calls ++ [Call.write s1.buf (s1.buf.length : Int) w],
            buf := s1.buf.remove0 w }

/-- The size `sendfile` works with after lines 168-175: the caller's size,
or what the source's `size()` reports when the caller's size is negative. -/
def sendfileSize {σ : Type} (inF : FileLike σ) (i : σ) (size : Int) : Int :=
  if size < 0 then inF.size i else size

/-- What has been read is what has been accepted followed by what is held. -/
def sendfileOrdered {σ τ : Type} (s : SendState σ τ) : Prop :=
  bytesRead s.calls = bytesAccepted s.calls ++ s.buf

/-- A destination that accepts one byte of every write; its state is what it
has accepted.  Used as a concrete instance with partial writes. -/
def trickle : FileLike (List Byte) where
  read := fun st data _ => some (0, data, st)
  write := fun st data _ => some (1, st ++ data.take 1)
  size := fun _ => -1

/-- With a positive target `k`: `total` counts the bytes read and is at most
`k`. -/
def WithinTarget {σ τ : Type} (k : Int) (s : SendState σ τ) : Prop :=
  ((bytesRead s.calls).length : Int) = s.total ∧ s.total ≤ k

/-- On a memory source the cursor has advanced by `total`. -/
def CursorFollows {τ : Type} (d : BytesIOPrivate) (s : SendState BytesIOPrivate τ) : Prop :=
  s.input = { buf := d.buf, pos := d.pos + s.total }

/-- The termination measure of the loop of `sendfile`, for a source with the
byte budget `μ`: twice the budget plus one while end of file is not recorded,
plus the bytes held. -/
def sendfileMeasure {σ τ : Type} (μ : σ → Nat) (s : SendState σ τ) : Nat :=
  (if s.eof = true then 0 else 2 * μ s.input + 1) + s.buf.length

/-- A memory source that `sendfile` can read without overrunning its scratch
block: the stream is the one `d` started as, advanced, with at most 8192
unread bytes, and the scratch block still has its 8192 bytes. -/
def SourceFits {τ : Type} (d : BytesIOPrivate) (s : SendState BytesIOPrivate τ) : Prop :=
  s.input.buf = d.buf ∧ d.pos ≤ s.input.pos ∧ s.input.pos ≤ (d.buf.length : Int) ∧
    s.t.length = 8192

/-- The bytes or caller's buffer of a call. -/
def BytesOp.data : BytesOp → List Byte
  | BytesOp.read data _ => data
  | BytesOp.write data _ => data

/-- The number of bytes a call asks to write: its size for a `write`, zero
for a `read`. -/
def BytesOp.written : BytesOp → Int
  | BytesOp.read _ _ => 0
  | BytesOp.write _ size => size

/-- A copy from a memory source into a memory destination that cannot fault:
the source fits the scratch block, the destination's cursor is not negative,
and the cursor with the bytes held and the bytes still unread fits 32 bits. -/
def CopyFits (d : BytesIOPrivate) (s : SendState BytesIOPrivate BytesIOPrivate) : Prop :=
  SourceFits d s ∧ 0 ≤ s.output.pos ∧
    s.output.pos + (s.buf.length : Int) + (( BytesIO.unread s.input : Nat) : Int) ≤ INT32_MAX

/-! ## Arithmetic and memory helpers -/

theorem INT32_MAX_eq : INT32_MAX = 2147483647 := rfl

theorem INT32_MIN_eq : INT32_MIN = -2147483648 := rfl

theorem INT64_MAX_eq : INT64_MAX = 9223372036854775807 := rfl

theorem uninitialized_length (n : Nat) : (uninitialized n).length = n := by
  simp [uninitialized]

theorem writtenBuf_length (buf : QByteArray) (c : Nat) (D : List Byte) (k : Nat)
    (hD : k ≤ D.length) : (writtenBuf buf c D k).length = max buf.length (c + k) := by
  simp only [writtenBuf, List.length_append, List.length_take, List.length_drop,
    uninitialized_length]
  omega

theorem writtenBuf_written (buf : QByteArray) (c : Nat) (D : List Byte) (k : Nat)
    (hD : k ≤ D.length) (i : Nat) (hi : i < k) : (writtenBuf buf c D k)[c + i]? = D[i]? := by
  have hlen : (List.take c (buf ++ uninitialized (c + k - buf.length))).length = c := by
    simp only [List.length_take, List.length_append, uninitialized_length]; omega
  have hlen2 : (List.take k D).length = k := by simp only [List.length_take]; omega
  unfold writtenBuf
  rw [List.append_assoc, List.getElem?_append_right (by omega)]
  rw [hlen, Nat.add_sub_cancel_left, List.getElem?_append_left (by omega)]
  rw [List.getElem?_take_of_lt hi]

theorem writtenBuf_frame (buf : QByteArray) (c : Nat) (D : List Byte) (k : Nat)
    (hD : k ≤ D.length) (i : Nat) (hi : i < buf.length) (hout : i < c ∨ c + k ≤ i) :
    (writtenBuf buf c D k)[i]? = buf[i]? := by
  have hlen : (List.take c (buf ++ uninitialized (c + k - buf.length))).length = c := by
    simp only [List.length_take, List.length_append, uninitialized_length]; omega
  have hlen2 : (List.take k D).length = k := by simp only [List.length_take]; omega
  unfold writtenBuf
  rcases hout with h | h
  · rw [List.append_assoc, List.getElem?_append_left (by omega)]
    rw [List.getElem?_take_of_lt h, List.getElem?_append_left hi]
  · rw [List.getElem?_append_right (by simp only [List.length_append, hlen, hlen2]; omega)]
    simp only [List.length_append, hlen, hlen2]
    rw [List.getElem?_drop]
    have : c + k + (i - (c + k)) = i := by omega
    rw [this, List.getElem?_append_left hi]

theorem writtenBuf_fresh (B : List Byte) : writtenBuf [] 0 B B.length = B := by
  simp [writtenBuf, uninitialized]

theorem writtenBuf_at_end (buf D : List Byte) (c k : Nat) (hc : buf.length = c)
    (hk : D.length = k) : writtenBuf buf c D k = buf ++ D := by
  subst hc hk
  simp [writtenBuf, uninitialized]

/-! ## The memory-backed stream -/

/-- A read of a well-formed memory stream, spelled out: the count is
`min (max (L - c) 0) n`, the bytes at the cursor go to the front of the
caller's buffer, the cursor advances by the count. -/
theorem BytesIO.read_eq (d : BytesIOPrivate) (data : List Byte) (n : Int)
    (hL : (d.buf.length : Int) ≤ INT32_MAX) (hc : 0 ≤ d.pos) (hc2 : d.pos ≤ INT32_MAX)
    (hn : 0 ≤ n) (hroom : min (max ((d.buf.length : Int) - d.pos) 0) n ≤ (data.length : Int)) :
    BytesIO.read d data n =
      some (min (max ((d.buf.length : Int) - d.pos) 0) n,
            (d.buf.drop d.pos.toNat).take (min (max ((d.buf.length : Int) - d.pos) 0) n).toNat
              ++ data.drop (min (max ((d.buf.length : Int) - d.pos) 0) n).toNat,
            { buf := d.buf, pos := d.pos + min (max ((d.buf.length : Int) - d.pos) 0) n }) := by
  simp only [INT32_MAX_eq] at hL hc2
  have hr0 : 0 ≤ min (max ((d.buf.length : Int) - d.pos) 0) n := le_min (le_max_right _ _) hn
  have hrle : min (max ((d.buf.length : Int) - d.pos) 0) n ≤ max ((d.buf.length : Int) - d.pos) 0 :=
    min_le_left _ _
  have hfit1 : FitsInt32 ((d.buf.length : Int) - d.pos) := by
    constructor <;> simp only [INT32_MAX_eq, INT32_MIN_eq] <;> omega
  have hfit2 : FitsInt32 (d.pos + min (max ((d.buf.length : Int) - d.pos) 0) n) := by
    constructor <;> simp only [INT32_MAX_eq, INT32_MIN_eq] <;> omega
  unfold BytesIO.read
  simp only [hfit1, hfit2, not_true_eq_false, if_false]
  generalize hr : min (max ((d.buf.length : Int) - d.pos) 0) n = r at *
  by_cases hz : r = 0
  · subst hz
    simp [memcpy]
  · have hpos : 0 < r := lt_of_le_of_ne hr0 (Ne.symm hz)
    have hsrc : ¬ ((d.buf.length : Int) < d.pos + r) := by omega
    have hdst : ¬ ((data.length : Int) < 0 + r) := by omega
    simp [memcpy, hz, not_lt.mpr hr0, not_lt.mpr hc, hsrc, hdst]
    rw [if_neg (not_lt.mpr hroom)]

/-- A read that would deliver more bytes than the caller's buffer holds
overruns that buffer: the call faults. -/
theorem BytesIO.read_overrun (d : BytesIOPrivate) (data : List Byte) (n : Int)
    (hc : 0 ≤ d.pos)
    (hover : (data.length : Int) < min (max ((d.buf.length : Int) - d.pos) 0) n) :
    BytesIO.read d data n = none := by
  have h1 : ¬ min (max ((d.buf.length : Int) - d.pos) 0) n = 0 := by omega
  have h2 : ¬ min (max ((d.buf.length : Int) - d.pos) 0) n < 0 := by omega
  have h3 : ¬ d.pos < 0 := by omega
  have h4 : (data.length : Int) < 0 + min (max ((d.buf.length : Int) - d.pos) 0) n := by omega
  have hm : memcpy data 0 d.buf d.pos (min (max ((d.buf.length : Int) - d.pos) 0) n) = none := by
    unfold memcpy
    rw [if_neg h1, if_neg h2, if_neg (by simp [h3]), if_pos (Or.inl h4)]
  unfold BytesIO.read
  split
  · rfl
  · simp only [hm]

/-- A write on a memory stream with a non-negative cursor whose end fits 32
bits, spelled out. -/
theorem BytesIO.write_eq (d : BytesIOPrivate) (D : List Byte) (k : Int)
    (hc : 0 ≤ d.pos) (hk : 0 ≤ k) (hD : k ≤ (D.length : Int))
    (hfit : d.pos + k ≤ INT32_MAX) :
    BytesIO.write d D k =
      some (k, { buf := writtenBuf d.buf d.pos.toNat D k.toNat, pos := d.pos + k }) := by
  obtain ⟨buf, pos⟩ := d
  simp only [INT32_MAX_eq] at hfit
  simp only at hc hfit
  obtain ⟨c, rfl⟩ := Int.eq_ofNat_of_zero_le hc
  obtain ⟨k', rfl⟩ := Int.eq_ofNat_of_zero_le hk
  have hfit1 : FitsInt32 ((c : Int) + (k' : Int)) := by
    constructor <;> simp only [INT32_MAX_eq, INT32_MIN_eq] <;> omega
  have hb : (if (buf.length : Int) < (c : Int) + (k' : Int) then
        QByteArray.resize buf ((c : Int) + (k' : Int)) else buf)
      = buf ++ uninitialized (c + k' - buf.length) := by
    split
    · rename_i h
      have h1 : ¬ ((c : Int) + (k' : Int) ≤ (buf.length : Int)) := by omega
      have h2 : ((c : Int) + (k' : Int)).toNat = c + k' := by omega
      simp only [QByteArray.resize, h1, if_false, h2]
    · rename_i h
      have : c + k' - buf.length = 0 := by omega
      simp [this, uninitialized]
  unfold BytesIO.write
  simp only [hfit1, not_true_eq_false, if_false, hb, Int.toNat_ofNat]
  by_cases hz : k' = 0
  · subst hz
    simp [memcpy, writtenBuf]
  · have hlen : ((buf ++ uninitialized (c + k' - buf.length)).length : Int) ≥ (c : Int) + k' := by
      rw [List.length_append, uninitialized_length]; omega
    have h1 : ¬ (((buf ++ uninitialized (c + k' - buf.length)).length : Int) < (c : Int) + k') := by
      omega
    have h2 : ¬ ((D.length : Int) < 0 + (k' : Int)) := by omega
    have h3 : ¬ ((k' : Int) < 0) := by omega
    have h4 : ¬ ((c : Int) < 0) := by omega
    have h5 : ¬ ((k' : Int) = 0) := by omega
    have h6 : ((c : Int) + (k' : Int)).toNat = c + k' := by omega
    simp only [memcpy, h1, h2, h3, h4, h5, if_false, or_self, writtenBuf, Int.toNat_ofNat, h6,
      lt_self_iff_false, Int.toNat_zero, List.drop_zero]

/-- C3, counterexample.  With `B = [1]`: the write into a fresh stream
succeeds and leaves the cursor at 1; the read of 1 byte that follows on the
same stream returns 0 bytes and leaves the caller's buffer as it was, so it
does not return `len(B) = 1` bytes. -/
theorem roundtrip_same_stream_counterexample :
    BytesIO.write BytesIO.empty [1] 1 = some (1, { buf := [1], pos := 1 }) ∧
    BytesIO.read { buf := [1], pos := 1 } [0] 1 = some (0, [0], { buf := [1], pos := 1 }) ∧
    ¬ ∃ data1 d2, BytesIO.read { buf := [1], pos := 1 } [0] 1 = some (1, data1, d2) := by
  refine ⟨by decide, by decide, ?_⟩
  rintro ⟨data1, d2, h⟩
  have h0 : BytesIO.read { buf := [1], pos := 1 } [0] 1
      = some (0, [0], { buf := [1], pos := 1 }) := by decide
  rw [h0] at h
  simp at h

/-- C3, amended.  Writing `B` into a fresh empty memory stream returns
`len(B)` and leaves the buffer equal to `B` with the cursor at `len(B)`; read
and write share that cursor, so a read of `len(B)` bytes on the same stream
returns 0 and delivers nothing; a read of `len(B)` bytes from a stream seeded
with the written buffer (cursor 0) returns `len(B)` and delivers exactly `B`.
`scratch` is the caller's buffer, of at least `len(B)` bytes. -/
theorem roundtrip_through_buffer (B scratch : List Byte)
    (hB : (B.length : Int) ≤ INT32_MAX) (hroom : B.length ≤ scratch.length) :
    BytesIO.write BytesIO.empty B (B.length : Int)
      = some ((B.length : Int), { buf := B, pos := (B.length : Int) }) ∧
    BytesIO.read { buf := B, pos := (B.length : Int) } scratch (B.length : Int)
      = some (0, scratch, { buf := B, pos := (B.length : Int) }) ∧
    BytesIO.read ( BytesIO.ofBytes B) scratch (B.length : Int)
      = some ((B.length : Int), B ++ scratch.drop B.length,
              { buf := B, pos := (B.length : Int) }) := by
  refine ⟨?_, ?_, ?_⟩
  · have h := BytesIO.write_eq BytesIO.empty B (B.length : Int) (le_refl _)
      (Int.ofNat_nonneg _) (le_refl _) (by simpa [ BytesIO.empty] using hB)
    simpa [ BytesIO.empty, writtenBuf_fresh] using h
  · have h := BytesIO.read_eq { buf := B, pos := (B.length : Int) } scratch (B.length : Int)
      hB (Int.ofNat_nonneg _) hB (Int.ofNat_nonneg _) (by simp)
    simpa using h
  · have h := BytesIO.read_eq ( BytesIO.ofBytes B) scratch (B.length : Int)
      hB (le_refl _) (by simp [ BytesIO.ofBytes, INT32_MAX_eq]) (Int.ofNat_nonneg _)
      (by simp [ BytesIO.ofBytes]; omega)
    simpa [ BytesIO.ofBytes] using h

/-- C3, amended, at `B = [1, 2, 3]` with a caller's buffer of four bytes. -/
theorem roundtrip_through_buffer_witness :
    BytesIO.write BytesIO.empty [1, 2, 3] 3 = some (3, { buf := [1, 2, 3], pos := 3 }) ∧
    BytesIO.read { buf := [1, 2, 3], pos := 3 } [0, 0, 0, 0] 3
      = some (0, [0, 0, 0, 0], { buf := [1, 2, 3], pos := 3 }) ∧
    BytesIO.read ( BytesIO.ofBytes [1, 2, 3]) [0, 0, 0, 0] 3
      = some (3, [1, 2, 3, 0], { buf := [1, 2, 3], pos := 3 }) :=
  roundtrip_through_buffer [1, 2, 3] [0, 0, 0, 0] (by decide) (by decide)

/-- C5, counterexample.  A stream holding one byte with the cursor at 1 (its
byte has been read) is asked to write `k = 2147483647` bytes: `c ≥ 0`,
`k ≥ 0` and `D` has `k` bytes, but `pos + size` overflows `qint32` and the
call faults instead of returning `k` with a buffer of `max(L, c + k)`
bytes. -/
theorem write_cursor_overflow_counterexample :
    (0 : Int) ≤ (⟨[5], 1⟩ : BytesIOPrivate).pos ∧
    ((List.replicate 2147483647 (0 : Byte)).length : Int) = 2147483647 ∧
    BytesIO.write ⟨[5], 1⟩ (List.replicate 2147483647 0) 2147483647 = none := by
  refine ⟨by decide, ?_, by decide⟩
  rw [List.length_replicate]; rfl

/-- C5, amended.  For a memory stream with buffer of length `L` and cursor
`c ≥ 0`, and `k ≥ 0` bytes `D`, with `c + k ≤ INT32_MAX`: `write(D, k)`
returns `k`, leaves the buffer with length `max(L, c + k)`, with the bytes
`[c, c + k)` equal to `D` and every byte at an index below `L` outside
`[c, c + k)` unchanged, and leaves the cursor at `c + k`. -/
theorem write_postcondition (d : BytesIOPrivate) (D : List Byte) (k : Int)
    (hc : 0 ≤ d.pos) (hk : 0 ≤ k) (hD : k ≤ (D.length : Int))
    (hfit : d.pos + k ≤ INT32_MAX) :
    ∃ buf1 : QByteArray,
      BytesIO.write d D k = some (k, { buf := buf1, pos := d.pos + k }) ∧
      (buf1.length : Int) = max (d.buf.length : Int) (d.pos + k) ∧
      (∀ i : Nat, (i : Int) < k → buf1[d.pos.toNat + i]? = D[i]?) ∧
      (∀ i : Nat, i < d.buf.length → ((i : Int) < d.pos ∨ d.pos + k ≤ (i : Int)) →
        buf1[i]? = d.buf[i]?) := by
  have hDn : k.toNat ≤ D.length := by omega
  refine ⟨writtenBuf d.buf d.pos.toNat D k.toNat, BytesIO.write_eq d D k hc hk hD hfit, ?_, ?_, ?_⟩
  · rw [writtenBuf_length _ _ _ _ hDn]
    omega
  · intro i hi
    exact writtenBuf_written _ _ _ _ hDn i (by omega)
  · intro i hi hout
    exact writtenBuf_frame _ _ _ _ hDn i hi (by omega)

/-- C5, amended, at the stream `[1, 2, 3]` with cursor 1 and `D = [9, 8, 7]`. -/
theorem write_postcondition_witness :
    ∃ buf1 : QByteArray,
      BytesIO.write ⟨[1, 2, 3], 1⟩ [9, 8, 7] 3 = some (3, { buf := buf1, pos := 1 + 3 }) ∧
      (buf1.length : Int) = max (([1, 2, 3] : QByteArray).length : Int) (1 + 3) ∧
      (∀ i : Nat, (i : Int) < 3 → buf1[(1 : Int).toNat + i]? = ([9, 8, 7] : List Byte)[i]?) ∧
      (∀ i : Nat, i < ([1, 2, 3] : QByteArray).length → ((i : Int) < 1 ∨ 1 + 3 ≤ (i : Int)) →
        buf1[i]? = ([1, 2, 3] : QByteArray)[i]?) :=
  write_postcondition ⟨[1, 2, 3], 1⟩ [9, 8, 7] 3 (by decide) (by decide) (by decide) (by decide)

/-- C6, counterexample.  A requested size of `-1` on the stream `[1]` at
cursor 0 makes `readBytes = -1`, which `memcpy` receives as a huge `size_t`:
the call faults instead of returning `min(max(L - c, 0), n) = -1`.  A negative
cursor makes `memcpy` read in front of the buffer and faults as well. -/
theorem read_negative_size_counterexample :
    BytesIO.read ⟨[1], 0⟩ [0] (-1) = none ∧ BytesIO.read ⟨[1], -1⟩ [0] 1 = none := by
  refine ⟨by decide, by decide⟩

/-- C6, amended.  For every memory stream (buffer of length `L`, cursor
`c ≥ 0`) and every requested size `n ≥ 0`, with a caller's buffer that has
room for the bytes delivered: `read` returns exactly `min(max(L - c, 0), n)`,
which is at most `n` and at most the available `max(L - c, 0)`; the bytes
delivered at the front of the caller's buffer are the buffer's bytes
`[c, c + result)`, the cursor advances by the result, and the buffer is not
modified. -/
theorem read_postcondition (d : BytesIOPrivate) (data : List Byte) (n : Int)
    (hL : (d.buf.length : Int) ≤ INT32_MAX) (hc : 0 ≤ d.pos) (hc2 : d.pos ≤ INT32_MAX)
    (hn : 0 ≤ n)
    (hroom : min (max ((d.buf.length : Int) - d.pos) 0) n ≤ (data.length : Int)) :
    ∃ (r : Int) (data1 : List Byte),
      BytesIO.read d data n = some (r, data1, { buf := d.buf, pos := d.pos + r }) ∧
      r = min (max ((d.buf.length : Int) - d.pos) 0) n ∧
      r ≤ n ∧ r ≤ max ((d.buf.length : Int) - d.pos) 0 ∧
      data1.length = data.length ∧
      data1.take r.toNat = (d.buf.drop d.pos.toNat).take r.toNat ∧
      (∀ i : Nat, (i : Int) < r → data1[i]? = d.buf[d.pos.toNat + i]?) := by
  have hr0 : 0 ≤ min (max ((d.buf.length : Int) - d.pos) 0) n := le_min (le_max_right _ _) hn
  have hrn : min (max ((d.buf.length : Int) - d.pos) 0) n ≤ n := min_le_right _ _
  have hra : min (max ((d.buf.length : Int) - d.pos) 0) n ≤ max ((d.buf.length : Int) - d.pos) 0 :=
    min_le_left _ _
  have hlen : ((d.buf.drop d.pos.toNat).take
      (min (max ((d.buf.length : Int) - d.pos) 0) n).toNat).length
        = (min (max ((d.buf.length : Int) - d.pos) 0) n).toNat := by
    simp only [List.length_take, List.length_drop]
    omega
  refine ⟨_, _, BytesIO.read_eq d data n hL hc hc2 hn hroom, rfl, hrn, hra, ?_, ?_, ?_⟩
  · rw [List.length_append, hlen, List.length_drop]
    omega
  · rw [List.take_append_of_le_length (by omega), List.take_of_length_le (by omega)]
  · intro i hi
    rw [List.getElem?_append_left (by omega), List.getElem?_take_of_lt (by omega),
      List.getElem?_drop]

/-- C6, amended, at the stream `[1, 2, 3]` with cursor 1 and a request of 5 bytes. -/
theorem read_postcondition_witness :
    ∃ (r : Int) (data1 : List Byte),
      BytesIO.read ⟨[1, 2, 3], 1⟩ [0, 0, 0, 0, 0] 5
        = some (r, data1, { buf := [1, 2, 3], pos := 1 + r }) ∧
      r = min (max ((([1, 2, 3] : QByteArray).length : Int) - 1) 0) 5 ∧
      r ≤ 5 ∧ r ≤ max ((([1, 2, 3] : QByteArray).length : Int) - 1) 0 ∧
      data1.length = ([0, 0, 0, 0, 0] : List Byte).length ∧
      data1.take r.toNat = (([1, 2, 3] : QByteArray).drop (1 : Int).toNat).take r.toNat ∧
      (∀ i : Nat, (i : Int) < r → data1[i]? = ([1, 2, 3] : QByteArray)[(1 : Int).toNat + i]?) :=
  read_postcondition ⟨[1, 2, 3], 1⟩ [0, 0, 0, 0, 0] 5 (by decide) (by decide) (by decide)
    (by decide) (by decide)

/-- What a `read` on a memory stream that does not fault returns: the count
`min(max(L - c, 0), n)`, which is not negative, and the stream with its cursor
advanced by the count. -/
theorem BytesIO.read_some (d : BytesIOPrivate) (data : List Byte) (n r : Int)
    (data1 : List Byte) (d1 : BytesIOPrivate)
    (h : BytesIO.read d data n = some (r, data1, d1)) :
    r = min (max ((d.buf.length : Int) - d.pos) 0) n ∧ 0 ≤ r ∧
      d1 = { buf := d.buf, pos := d.pos + r } := by
  unfold BytesIO.read at h
  split at h
  · cases h
  · simp only at h
    cases hm : memcpy data 0 d.buf d.pos (min (max ((d.buf.length : Int) - d.pos) 0) n) with
    | none => rw [hm] at h; cases h
    | some data2 =>
      rw [hm] at h
      simp only at h
      split at h
      · cases h
      · simp only [Option.some.injEq, Prod.mk.injEq] at h
        obtain ⟨h1, _, h3⟩ := h
        refine ⟨h1.symm, ?_, ?_⟩
        · rw [← h1]
          by_contra hneg
          have hlt : min (max ((d.buf.length : Int) - d.pos) 0) n < 0 := not_le.mp hneg
          unfold memcpy at hm
          rw [if_neg (ne_of_lt hlt), if_pos hlt] at hm
          cases hm
        · rw [← h3, h1]

/-- C13, counterexample.  A request of 0 bytes on the stream `[1]` with the
cursor at 0 returns 0 although the cursor has not reached the buffer length
1. -/
theorem read_zero_request_counterexample :
    BytesIO.read ⟨[1], 0⟩ [0] 0 = some (0, [0], ⟨[1], 0⟩) ∧
    ¬ ((([1] : QByteArray).length : Int) ≤ (⟨[1], 0⟩ : BytesIOPrivate).pos) := by
  refine ⟨by decide, by decide⟩

/-- C13, amended.  For every memory stream and every requested size other
than 0, if `read` returns 0 then the cursor is at or beyond the buffer
length. -/
theorem read_zero_only_at_end (d : BytesIOPrivate) (data : List Byte) (n : Int)
    (data1 : List Byte) (d1 : BytesIOPrivate) (hn : n ≠ 0)
    (h : BytesIO.read d data n = some (0, data1, d1)) :
    (d.buf.length : Int) ≤ d.pos := by
  obtain ⟨hr, _, _⟩ := BytesIO.read_some d data n 0 data1 d1 h
  by_contra hlt
  have h1 : max ((d.buf.length : Int) - d.pos) 0 = (d.buf.length : Int) - d.pos :=
    max_eq_left (by omega)
  rw [h1] at hr
  rcases le_total ((d.buf.length : Int) - d.pos) n with hle | hle
  · rw [min_eq_left hle] at hr; omega
  · rw [min_eq_right hle] at hr; exact hn hr.symm

/-- C13, amended, at the stream `[1, 2]` with the cursor at its end and a
request of 4 bytes. -/
theorem read_zero_only_at_end_witness :
    BytesIO.read ⟨[1, 2], 2⟩ [0, 0, 0, 0] 4 = some (0, [0, 0, 0, 0], ⟨[1, 2], 2⟩) ∧
    ((([1, 2] : QByteArray).length : Int) ≤ (⟨[1, 2], 2⟩ : BytesIOPrivate).pos) :=
  ⟨by decide, read_zero_only_at_end ⟨[1, 2], 2⟩ [0, 0, 0, 0] 4 [0, 0, 0, 0] ⟨[1, 2], 2⟩
    (by decide) (by decide)⟩

/-! ## `readall` -/

theorem readallLoop_succ {σ : Type} (f : FileLike σ) (s : Int) (ok : Option Bool) (fuel : Nat)
    (st : σ) (buf : List Byte) (data : QByteArray) (calls : List Call) :
    FileLike.readallLoop f s ok (fuel + 1) st buf data calls =
      match f.read st buf (1024 * 8) with
      | none => Run.fault
      | some (readBytes, buf1, st1) =>
        if readBytes ≤ 0 then
          Run.ret
            { data := data
              ok := ok.map (fun _ => decide (s < 0 ∨ (data.length : Int) = s))
              file := st1
              calls := calls ++ [Call.read (1024 * 8) readBytes []] }
        else
          match data.append buf1 readBytes with
          | none => Run.fault
          | some data1 =>
            FileLike.readallLoop f s ok fuel st1 buf1 data1
              (calls ++ [Call.read (1024 * 8) readBytes (buf1.take readBytes.toNat)]) := by
  rfl

/-- The loop of `readall` on a memory stream whose cursor is at `pos`, with the
first `pos` bytes already collected: with more fuel than bytes left it returns
the whole buffer, and the stream ends with its cursor at the end. -/
theorem readallLoop_bytes (B : QByteArray) (s : Int) (ok : Option Bool)
    (hB : (B.length : Int) ≤ INT32_MAX) :
    ∀ (fuel pos : Nat) (buf : List Byte) (calls : List Call),
      pos ≤ B.length → buf.length = 8192 → B.length - pos < fuel →
      ∃ calls1, FileLike.readallLoop BytesIO.fileLike s ok fuel
          { buf := B, pos := (pos : Int) } buf (B.take pos) calls
        = Run.ret { data := B
                    ok := ok.map (fun _ => decide (s < 0 ∨ (B.length : Int) = s))
                    file := { buf := B, pos := (B.length : Int) }
                    calls := calls1 } := by
  intro fuel
  induction fuel with
  | zero => intro pos buf calls _ _ h; omega
  | succ fuel ih =>
    intro pos buf calls hpos hbuf hfuel
    have hB' := hB
    simp only [INT32_MAX_eq] at hB'
    have hr : min (max ((B.length : Int) - (pos : Int)) 0) (1024 * 8)
        = ((min (B.length - pos) 8192 : Nat) : Int) := by
      rw [max_eq_left (by omega)]
      omega
    have hread : BytesIO.fileLike.read { buf := B, pos := (pos : Int) } buf (1024 * 8)
        = some (((min (B.length - pos) 8192 : Nat) : Int),
            (B.drop pos).take (min (B.length - pos) 8192) ++ buf.drop (min (B.length - pos) 8192),
            { buf := B, pos := (pos : Int) + ((min (B.length - pos) 8192 : Nat) : Int) }) := by
      have h := BytesIO.read_eq { buf := B, pos := (pos : Int) } buf (1024 * 8) hB
        (by simp) (by simp only [INT32_MAX_eq]; omega) (by decide)
        (by simp only [hr, hbuf]; omega)
      simp only [hr, Int.toNat_ofNat] at h
      exact h
    rw [readallLoop_succ, hread]
    simp only
    by_cases hend : pos = B.length
    · subst hend
      have h0 : min (B.length - B.length) 8192 = 0 := by simp
      refine ⟨calls ++ [Call.read (1024 * 8) 0 []], ?_⟩
      simp [h0]
    · have hpos' : pos < B.length := by omega
      have hrpos : ¬ (((min (B.length - pos) 8192 : Nat) : Int) ≤ 0) := by omega
      rw [if_neg hrpos]
      have hlen1 : ((B.drop pos).take (min (B.length - pos) 8192)).length
          = min (B.length - pos) 8192 := by
        simp only [List.length_take, List.length_drop]; omega
      have happ : QByteArray.append (B.take pos)
          ((B.drop pos).take (min (B.length - pos) 8192) ++ buf.drop (min (B.length - pos) 8192))
          ((min (B.length - pos) 8192 : Nat) : Int)
          = some (B.take (pos + min (B.length - pos) 8192)) := by
        have h1 : ¬ ((((B.drop pos).take (min (B.length - pos) 8192)
            ++ buf.drop (min (B.length - pos) 8192)).length : Int)
              < ((min (B.length - pos) 8192 : Nat) : Int)) := by
          simp only [List.length_append, hlen1]; omega
        have h2 : ¬ (INT32_MAX < ((B.take pos).length : Int)
            + ((min (B.length - pos) 8192 : Nat) : Int)) := by
          simp only [List.length_take, INT32_MAX_eq]; omega
        unfold QByteArray.append
        rw [if_neg h1, if_neg h2]
        simp only [Int.toNat_ofNat]
        rw [List.take_left' hlen1, List.take_add]
      rw [happ]
      simp only
      have hcast : (pos : Int) + ((min (B.length - pos) 8192 : Nat) : Int)
          = ((pos + min (B.length - pos) 8192 : Nat) : Int) := by omega
      rw [hcast]
      apply ih
      · omega
      · simp only [List.length_append, hlen1, List.length_drop, hbuf]; omega
      · omega

/-- `readall` on a memory stream seeded with a non-empty `B` of fewer than
`INT32_MAX` bytes, cursor 0, with more fuel than `B` has bytes: the result is
exactly `B` and a non-null flag is set to true. -/
theorem readall_bytes_nonempty (B : QByteArray) (ok : Option Bool) (fuel : Nat)
    (hne : B ≠ []) (hB : (B.length : Int) < INT32_MAX) (hfuel : B.length < fuel) :
    ∃ calls, BytesIO.fileLike.readall (FileLike.bytes B) ok fuel
      = Run.ret { data := B, ok := ok.map (fun _ => true),
                  file := { buf := B, pos := (B.length : Int) }, calls := calls } := by
  have hsz : BytesIO.fileLike.size (FileLike.bytes B) = (B.length : Int) := rfl
  have hpos : 0 < B.length := List.length_pos.mpr hne
  unfold FileLike.readall
  simp only [hsz]
  rw [if_neg (not_le.mpr hB), if_neg (by omega)]
  obtain ⟨calls1, h⟩ := readallLoop_bytes B (B.length : Int) ok (le_of_lt hB) fuel 0
    (uninitialized (1024 * 8)) [] (Nat.zero_le _) (uninitialized_length _) (by omega)
  refine ⟨calls1, ?_⟩
  simp only [List.take_zero, Nat.cast_zero] at h
  rw [show FileLike.bytes B = ({ buf := B, pos := 0 } : BytesIOPrivate) from rfl, h]
  simp

/-- C4, failing input.  `readall` on a memory stream seeded with the empty
sequence, with the caller's flag holding `false`: the empty array is
returned and the flag still holds `false`, for every iteration bound. -/
theorem readall_empty_bytes_flag_unset (fuel : Nat) :
    BytesIO.fileLike.readall (FileLike.bytes []) (some false) fuel
      = Run.ret { data := [], ok := some false, file := FileLike.bytes [], calls := [] } := by
  unfold FileLike.readall
  simp [ BytesIO.fileLike, BytesIO.size, FileLike.bytes, BytesIO.ofBytes, INT32_MAX_eq]

/-- C7.  For every stream whose `size()` reports a value `≥ INT32_MAX`,
whatever it holds and whatever the iteration bound, `readall` returns an empty
array, stores `false` behind a non-null `ok`, and makes no call on the stream
(the stream is left as it was). -/
theorem readall_rejects_oversize {σ : Type} (f : FileLike σ) (st : σ) (ok : Option Bool)
    (fuel : Nat) (h : INT32_MAX ≤ f.size st) :
    f.readall st ok fuel
      = Run.ret { data := [], ok := ok.map (fun _ => false), file := st, calls := [] } := by
  unfold FileLike.readall
  simp only [h, if_true]

/-- C7 at a memory stream holding `[1, 2, 3]` that reports a size of `INT32_MAX`. -/
theorem readall_rejects_oversize_witness :
    INT32_MAX ≤ (misreporting 2147483647).size ( BytesIO.ofBytes [1, 2, 3]) ∧
    (misreporting 2147483647).readall ( BytesIO.ofBytes [1, 2, 3]) (some true) 0
      = Run.ret { data := [], ok := some false, file := BytesIO.ofBytes [1, 2, 3], calls := [] } :=
  ⟨by decide, readall_rejects_oversize (misreporting 2147483647) ( BytesIO.ofBytes [1, 2, 3])
    (some true) 0 (by decide)⟩

/-- C8, what the code does.  For every stream whose `size()` reports exactly
0, `readall` returns an empty array and makes no call, but leaves the value
behind `ok` as the caller had it: the `s == 0` branch returns without
assigning `*ok`. -/
theorem readall_zero_size_leaves_flag {σ : Type} (f : FileLike σ) (st : σ) (ok : Option Bool)
    (fuel : Nat) (h : f.size st = 0) :
    f.readall st ok fuel = Run.ret { data := [], ok := ok, file := st, calls := [] } := by
  unfold FileLike.readall
  have h1 : ¬ INT32_MAX ≤ (0 : Int) := by decide
  simp only [h, h1, if_false, if_true]

/-- C8 at a stream reporting size 0, with the flag holding `false` on entry. -/
theorem readall_zero_size_leaves_flag_witness :
    (sizeOnly 0).size () = 0 ∧
    (sizeOnly 0).readall () (some false) 0
      = Run.ret { data := [], ok := some false, file := (), calls := [] } :=
  ⟨rfl, readall_zero_size_leaves_flag (sizeOnly 0) () (some false) 0 rfl⟩

/-- The loop of `readall` on a memory stream whose cursor is at `pos`, entered
with `acc` already collected: with more fuel than bytes left it returns `acc`
followed by the bytes from the cursor to the end, and the stream ends with its
cursor at the end. -/
theorem readallLoop_bytes_from (B : QByteArray) (s : Int) (ok : Option Bool)
    (hB : (B.length : Int) ≤ INT32_MAX) :
    ∀ (fuel pos : Nat) (buf : List Byte) (acc : QByteArray) (calls : List Call),
      pos ≤ B.length → buf.length = 8192 →
      ((acc.length + (B.length - pos) : Nat) : Int) ≤ INT32_MAX → B.length - pos < fuel →
      ∃ calls1, FileLike.readallLoop BytesIO.fileLike s ok fuel
          { buf := B, pos := (pos : Int) } buf acc calls
        = Run.ret { data := acc ++ B.drop pos
                    ok := ok.map (fun _ =>
                      decide (s < 0 ∨ ((acc ++ B.drop pos).length : Int) = s))
                    file := { buf := B, pos := (B.length : Int) }
                    calls := calls1 } := by
  intro fuel
  induction fuel with
  | zero => intro pos buf acc calls _ _ _ h; omega
  | succ fuel ih =>
    intro pos buf acc calls hpos hbuf hcap hfuel
    simp only [INT32_MAX_eq] at hcap
    have hB' := hB
    simp only [INT32_MAX_eq] at hB'
    have hr : min (max ((B.length : Int) - (pos : Int)) 0) (1024 * 8)
        = ((min (B.length - pos) 8192 : Nat) : Int) := by
      rw [max_eq_left (by omega)]
      omega
    have hread : BytesIO.fileLike.read { buf := B, pos := (pos : Int) } buf (1024 * 8)
        = some (((min (B.length - pos) 8192 : Nat) : Int),
            (B.drop pos).take (min (B.length - pos) 8192) ++ buf.drop (min (B.length - pos) 8192),
            { buf := B, pos := (pos : Int) + ((min (B.length - pos) 8192 : Nat) : Int) }) := by
      have h := BytesIO.read_eq { buf := B, pos := (pos : Int) } buf (1024 * 8) hB
        (by simp) (by simp only [INT32_MAX_eq]; omega) (by decide)
        (by simp only [hr, hbuf]; omega)
      simp only [hr, Int.toNat_ofNat] at h
      exact h
    rw [readallLoop_succ, hread]
    simp only
    by_cases hend : pos = B.length
    · subst hend
      have h0 : min (B.length - B.length) 8192 = 0 := by simp
      refine ⟨calls ++ [Call.read (1024 * 8) 0 []], ?_⟩
      simp [h0]
    · have hpos' : pos < B.length := by omega
      have hrpos : ¬ (((min (B.length - pos) 8192 : Nat) : Int) ≤ 0) := by omega
      rw [if_neg hrpos]
      have hlen1 : ((B.drop pos).take (min (B.length - pos) 8192)).length
          = min (B.length - pos) 8192 := by
        simp only [List.length_take, List.length_drop]; omega
      have happ : QByteArray.append acc
          ((B.drop pos).take (min (B.length - pos) 8192) ++ buf.drop (min (B.length - pos) 8192))
          ((min (B.length - pos) 8192 : Nat) : Int)
          = some (acc ++ (B.drop pos).take (min (B.length - pos) 8192)) := by
        have h1 : ¬ ((((B.drop pos).take (min (B.length - pos) 8192)
            ++ buf.drop (min (B.length - pos) 8192)).length : Int)
              < ((min (B.length - pos) 8192 : Nat) : Int)) := by
          simp only [List.length_append, hlen1]; omega
        have h2 : ¬ (INT32_MAX < (acc.length : Int)
            + ((min (B.length - pos) 8192 : Nat) : Int)) := by
          simp only [INT32_MAX_eq]; omega
        unfold QByteArray.append
        rw [if_neg h1, if_neg h2]
        simp only [Int.toNat_ofNat]
        rw [List.take_left' hlen1]
      rw [happ]
      simp only
      have hcast : (pos : Int) + ((min (B.length - pos) 8192 : Nat) : Int)
          = ((pos + min (B.length - pos) 8192 : Nat) : Int) := by omega
      rw [hcast]
      have hdrop : (B.drop pos).take (min (B.length - pos) 8192)
          ++ B.drop (pos + min (B.length - pos) 8192) = B.drop pos := by
        rw [← List.drop_drop, List.take_append_drop]
      obtain ⟨calls1, h⟩ := ih (pos + min (B.length - pos) 8192)
        ((B.drop pos).take (min (B.length - pos) 8192) ++ buf.drop (min (B.length - pos) 8192))
        (acc ++ (B.drop pos).take (min (B.length - pos) 8192))
        (calls ++ [Call.read (1024 * 8) ((min (B.length - pos) 8192 : Nat) : Int)
          (((B.drop pos).take (min (B.length - pos) 8192)
            ++ buf.drop (min (B.length - pos) 8192)).take
              ((min (B.length - pos) 8192 : Nat) : Int).toNat)])
        (by omega)
        (by simp only [List.length_append, hlen1, List.length_drop, hbuf]; omega)
        (by simp only [List.length_append, hlen1, INT32_MAX_eq]; omega)
        (by omega)
      refine ⟨calls1, ?_⟩
      rw [h]
      simp only [List.append_assoc, hdrop]

/-- C20.  For a memory stream with non-empty buffer `B` of length
`L < INT32_MAX` whose cursor is `c ≤ L`, `readall` with more fuel than unread
bytes returns the suffix `B[c..L)` and stores behind a non-null `ok` whether
`c = 0`: for `0 < c ≤ L` only the suffix is returned and the flag is false,
because `size()` reports `L` whatever the cursor; the flag is true only when
`c = 0`. -/
theorem readall_cursor_sensitive (B : QByteArray) (c : Nat) (ok : Option Bool) (fuel : Nat)
    (hne : B ≠ []) (hB : (B.length : Int) < INT32_MAX) (hc : c ≤ B.length)
    (hfuel : B.length - c < fuel) :
    ∃ calls, BytesIO.fileLike.readall { buf := B, pos := (c : Int) } ok fuel
      = Run.ret { data := B.drop c, ok := ok.map (fun _ => decide (c = 0)),
                  file := { buf := B, pos := (B.length : Int) }, calls := calls } := by
  have hsz : BytesIO.fileLike.size { buf := B, pos := (c : Int) } = (B.length : Int) := rfl
  have hpos : 0 < B.length := List.length_pos.mpr hne
  have hB' := hB
  simp only [INT32_MAX_eq] at hB'
  unfold FileLike.readall
  simp only [hsz]
  rw [if_neg (not_le.mpr hB), if_neg (by omega)]
  obtain ⟨calls1, h⟩ := readallLoop_bytes_from B (B.length : Int) ok (le_of_lt hB) fuel c
    (uninitialized (1024 * 8)) [] [] hc (uninitialized_length _)
    (by simp only [List.length_nil, INT32_MAX_eq]; omega) hfuel
  refine ⟨calls1, ?_⟩
  rw [h]
  have hflag : decide ((B.length : Int) < 0 ∨ ((B.drop c).length : Int)
      = (B.length : Int)) = decide (c = 0) := by
    rw [decide_eq_decide]
    simp only [List.length_drop]
    omega
  simp only [List.nil_append, hflag]

/-- C20 at the stream `[1, 2, 3]` with the cursor at 1: the suffix `[2, 3]`
and the flag false. -/
theorem readall_cursor_sensitive_witness :
    ∃ calls, BytesIO.fileLike.readall { buf := [1, 2, 3], pos := ((1 : Nat) : Int) }
        (some true) 3
      = Run.ret { data := ([1, 2, 3] : QByteArray).drop 1,
                  ok := (some true).map (fun _ => decide (1 = 0)),
                  file := { buf := [1, 2, 3],
                            pos := ((([1, 2, 3] : QByteArray).length : Nat) : Int) },
                  calls := calls } :=
  readall_cursor_sensitive [1, 2, 3] 1 (some true) 3 (by decide) (by decide) (by decide)
    (by decide)

theorem sendfileLoop_succ {σ τ : Type} (inF : FileLike σ) (outF : FileLike τ) (size : Int)
    (fuel : Nat) (s : SendState σ τ) :
    sendfileLoop inF outF size (fuel + 1) s =
      match sendfileRead inF size s with
      | ReadPhase.fault => Run.fault
      | ReadPhase.abort s1 => Run.ret (false, s1)
      | ReadPhase.next s1 =>
        if s1.buf.isEmpty then
          Run.ret (decide (size < 0 ∨ s1.total = size), s1)
        else
          match outF.write s1.output s1.buf (s1.buf.length : Int) with
          | none => Run.fault
          | some (writtenBytes, out1) =>
            if writtenBytes ≤ 0 then
              Run.ret (false,
                { s1 with output := out1,
                          calls := s1.calls ++
                            [Call.write s1.buf (s1.buf.length : Int) writtenBytes] })
            else
              sendfileLoop inF outF size fuel
                { s1 with output := out1,
                          calls := s1.calls ++
                            [Call.write s1.buf (s1.buf.length : Int) writtenBytes],
                          buf := s1.buf.remove0 writtenBytes } := by
  rfl

/-- More fuel does not change a run of the loop that ended. -/
theorem sendfileLoop_mono {σ τ : Type} (inF : FileLike σ) (outF : FileLike τ) (size : Int)
    (m : Nat) : ∀ (n : Nat) (s : SendState σ τ) (r : Run (Bool × SendState σ τ)),
      sendfileLoop inF outF size n s = r → r ≠ Run.nofuel →
      sendfileLoop inF outF size (n + m) s = r := by
  intro n
  induction n with
  | zero =>
    intro s r h hr
    exact absurd h.symm hr
  | succ n ih =>
    intro s r h hr
    have e : n + 1 + m = (n + m) + 1 := by omega
    rw [e, sendfileLoop_succ]
    rw [sendfileLoop_succ] at h
    cases hrd : sendfileRead inF size s with
    | fault => rw [hrd] at h; exact h
    | abort s1 => rw [hrd] at h; exact h
    | next s1 =>
      rw [hrd] at h
      simp only at h ⊢
      by_cases hb : s1.buf.isEmpty = true
      · rw [if_pos hb] at h ⊢; exact h
      · rw [if_neg hb] at h ⊢
        cases hw : outF.write s1.output s1.buf (s1.buf.length : Int) with
        | none => rw [hw] at h; exact h
        | some p =>
          obtain ⟨w, out1⟩ := p
          rw [hw] at h
          simp only at h ⊢
          by_cases hle : w ≤ 0
          · rw [if_pos hle] at h ⊢; exact h
          · rw [if_neg hle] at h ⊢
            exact ih _ _ h hr

/-- `sendfile` on two non-null handles, spelled out. -/
theorem sendfile_some {σ τ : Type} (inF : FileLike σ) (outF : FileLike τ) (i : σ) (o : τ)
    (size : Int) (fuel : Nat) :
    sendfile inF outF (some i) (some o) size fuel =
      if size < 0 ∧ (if size < 0 then inF.size i else size) = 0 then
        Run.ret { result := true, inputFile := some i, outputFile := some o, calls := [] }
      else
        match sendfileLoop inF outF (if size < 0 then inF.size i else size) fuel
            (sendfileInit i o) with
        | Run.ret (b, s) =>
          Run.ret { result := b, inputFile := some s.input, outputFile := some s.output,
                    calls := s.calls }
        | Run.fault => Run.fault
        | Run.nofuel => Run.nofuel := by
  rfl

/-- More fuel does not change a run of `sendfile` that ended. -/
theorem sendfile_mono {σ τ : Type} (inF : FileLike σ) (outF : FileLike τ)
    (inputFile : Option σ) (outputFile : Option τ) (size : Int) (n m : Nat)
    (r : Run (SendResult σ τ))
    (h : sendfile inF outF inputFile outputFile size n = r) (hr : r ≠ Run.nofuel) :
    sendfile inF outF inputFile outputFile size (n + m) = r := by
  cases inputFile with
  | none => exact h
  | some i =>
    cases outputFile with
    | none => exact h
    | some o =>
      rw [sendfile_some] at h ⊢
      generalize (if size < 0 then inF.size i else size) = size1 at h ⊢
      by_cases hc : size < 0 ∧ size1 = 0
      · rw [if_pos hc] at h ⊢; exact h
      · rw [if_neg hc] at h ⊢
        cases hl : sendfileLoop inF outF size1 n (sendfileInit i o) with
        | nofuel => rw [hl] at h; exact absurd h.symm hr
        | fault =>
          rw [sendfileLoop_mono inF outF _ m n _ _ hl (by simp)]
          rw [hl] at h; exact h
        | ret p =>
          rw [sendfileLoop_mono inF outF _ m n _ _ hl (by simp)]
          rw [hl] at h; exact h

/-- When the read of an iteration is issued on a memory source and would
deliver more bytes than the scratch block holds, the iteration faults. -/
theorem sendfileRead_bytes_overrun {τ : Type} (size : Int) (s : SendState BytesIOPrivate τ)
    (hrem : 0 < sendfileRemain size s) (heof : s.eof = false)
    (hroom : (1024 * 8 : Int) < 1024 * 16 - (s.buf.length : Int))
    (hc : 0 ≤ s.input.pos)
    (hover : (s.t.length : Int)
      < min (max ((s.input.buf.length : Int) - s.input.pos) 0) (sendfileBlock size s)) :
    sendfileRead BytesIO.fileLike size s = ReadPhase.fault := by
  have hr : BytesIO.fileLike.read s.input s.t (sendfileBlock size s) = none :=
    BytesIO.read_overrun s.input s.t (sendfileBlock size s) hc hover
  unfold sendfileRead
  rw [if_pos hrem, if_pos ⟨heof, hroom⟩]
  simp only [hr]

/-- A memory source of more than 8192 bytes, with a requested size that is
negative, zero or above 8192: the first read overruns the 8192-byte scratch
block and `sendfile` faults, whatever the destination. -/
theorem sendfile_bytes_scratch_overrun {τ : Type} (outF : FileLike τ) (o : τ) (S : QByteArray)
    (size : Int) (fuel : Nat) (hS : 8192 < S.length) (hsize : size ≤ 0 ∨ 8192 < size) :
    sendfile BytesIO.fileLike outF (some (FileLike.bytes S)) (some o) size (fuel + 1)
      = Run.fault := by
  have hsz : BytesIO.fileLike.size (FileLike.bytes S) = (S.length : Int) := rfl
  have hne : ¬ (size < 0 ∧ (if size < 0 then BytesIO.fileLike.size (FileLike.bytes S) else size)
      = 0) := by
    rintro ⟨h1, h2⟩
    rw [if_pos h1, hsz] at h2
    omega
  have hsize1 : (if size < 0 then BytesIO.fileLike.size (FileLike.bytes S) else size) ≤ 0 ∨
      8192 < (if size < 0 then BytesIO.fileLike.size (FileLike.bytes S) else size) := by
    split
    · right; rw [hsz]; omega
    · exact hsize
  rw [sendfile_some, if_neg hne]
  generalize (if size < 0 then BytesIO.fileLike.size (FileLike.bytes S) else size) = size1
    at hsize1
  have hrem : sendfileRemain size1 (sendfileInit (FileLike.bytes S) o)
      = if 0 < size1 then size1 else INT64_MAX := by
    unfold sendfileRemain
    split
    · simp only [sendfileInit, List.length_nil]; omega
    · rfl
  have hblock : (8192 : Int) < sendfileBlock size1 (sendfileInit (FileLike.bytes S) o) := by
    unfold sendfileBlock
    rw [hrem]
    simp only [sendfileInit, List.length_nil, INT64_MAX_eq]
    split <;> omega
  have hfault : sendfileRead BytesIO.fileLike size1 (sendfileInit (FileLike.bytes S) o)
      = ReadPhase.fault := by
    apply sendfileRead_bytes_overrun
    · rw [hrem]; simp only [INT64_MAX_eq]; split <;> omega
    · rfl
    · simp [sendfileInit]
    · simp [sendfileInit, FileLike.bytes, BytesIO.ofBytes]
    · simp only [sendfileInit, uninitialized_length, FileLike.bytes, BytesIO.ofBytes] at hblock ⊢
      omega
  rw [sendfileLoop_succ, hfault]

/-- A transfer of `k` bytes, `0 < k ≤ 8192`, from the start of a memory source
into an empty memory destination: one read, one write, then the loop ends
with success. -/
theorem sendfileLoop_bytes_small (S : QByteArray) (k : Nat) (fuel : Nat) (hk : 0 < k)
    (hk2 : k ≤ 8192) (hkS : k ≤ S.length) (hS : (S.length : Int) ≤ INT32_MAX) :
    sendfileLoop BytesIO.fileLike BytesIO.fileLike (k : Int) (fuel + 2)
        (sendfileInit (FileLike.bytes S) BytesIO.empty)
      = Run.ret (true,
          { input := { buf := S, pos := (k : Int) },
            output := { buf := S.take k, pos := (k : Int) },
            buf := [], t := S.take k ++ (uninitialized (1024 * 8)).drop k,
            total := (k : Int), eof := false,
            calls := [Call.read (k : Int) (k : Int) (S.take k),
                      Call.write (S.take k) (k : Int) (k : Int)] }) := by
  have hk0 : (0 : Int) < (k : Int) := by omega
  have hlenT : (S.take k).length = k := by simp only [List.length_take]; omega
  -- the read of the first iteration
  have hblock : sendfileBlock (k : Int) (sendfileInit (FileLike.bytes S) BytesIO.empty)
      = (k : Int) := by
    simp only [sendfileBlock, sendfileRemain, sendfileInit, List.length_nil, hk0, if_true]
    omega
  have hrem : sendfileRemain (k : Int) (sendfileInit (FileLike.bytes S) BytesIO.empty)
      = (k : Int) := by
    simp only [sendfileRemain, sendfileInit, List.length_nil, hk0, if_true]
    omega
  have hmin : min (max (((FileLike.bytes S).buf.length : Int) - (FileLike.bytes S).pos) 0)
      (k : Int) = (k : Int) := by
    show min (max ((S.length : Int) - 0) 0) (k : Int) = (k : Int)
    rw [max_eq_left (by omega), min_eq_right (by omega)]
  have hread : BytesIO.fileLike.read (FileLike.bytes S) (uninitialized (1024 * 8)) (k : Int)
      = some ((k : Int), S.take k ++ (uninitialized (1024 * 8)).drop k,
              { buf := S, pos := (k : Int) }) := by
    have h := BytesIO.read_eq (FileLike.bytes S) (uninitialized (1024 * 8)) (k : Int) hS
      (le_refl _) (by simp [FileLike.bytes, BytesIO.ofBytes, INT32_MAX_eq]) (by omega)
      (by rw [hmin, uninitialized_length]; omega)
    rw [hmin] at h
    simp only [FileLike.bytes, BytesIO.ofBytes, Int.toNat_ofNat, Int.toNat_zero,
      List.drop_zero, zero_add] at h
    exact h
  have happ : QByteArray.append [] (S.take k ++ (uninitialized (1024 * 8)).drop k) (k : Int)
      = some (S.take k) := by
    have h1 : ¬ (((S.take k ++ (uninitialized (1024 * 8)).drop k).length : Int) < (k : Int)) := by
      simp only [List.length_append, hlenT, List.length_drop, uninitialized_length]; omega
    have h2 : ¬ (INT32_MAX < (([] : QByteArray).length : Int) + (k : Int)) := by
      simp only [List.length_nil, INT32_MAX_eq]; omega
    unfold QByteArray.append
    rw [if_neg h1, if_neg h2]
    simp only [Int.toNat_ofNat, List.nil_append]
    rw [List.take_left' hlenT]
  have hrd1 : sendfileRead BytesIO.fileLike (k : Int)
      (sendfileInit (FileLike.bytes S) BytesIO.empty)
      = ReadPhase.next
          { input := { buf := S, pos := (k : Int) }, output := BytesIO.empty,
            buf := S.take k, t := S.take k ++ (uninitialized (1024 * 8)).drop k,
            total := (k : Int), eof := false,
            calls := [Call.read (k : Int) (k : Int) (S.take k)] } := by
    unfold sendfileRead
    rw [hrem, if_pos hk0, if_pos ⟨rfl, by simp [sendfileInit]⟩, hblock]
    simp only [sendfileInit] at hread ⊢
    simp only [hread, happ, not_lt.mpr (le_of_lt hk0), hk0, if_false, if_true, zero_add,
      List.nil_append, Int.toNat_ofNat, List.take_left' hlenT]
  have hwrite : BytesIO.fileLike.write BytesIO.empty (S.take k) (k : Int)
      = some ((k : Int), { buf := S.take k, pos := (k : Int) }) := by
    have h := BytesIO.write_eq BytesIO.empty (S.take k) (k : Int) (le_refl _) (by omega)
      (by omega) (by simp only [ BytesIO.empty, INT32_MAX_eq]; omega)
    have hw := writtenBuf_fresh (S.take k)
    rw [hlenT] at hw
    simp only [ BytesIO.empty, Int.toNat_ofNat, Int.toNat_zero, hw, zero_add] at h
    exact h
  have hne : (S.take k).isEmpty = false := by
    cases hS' : S.take k with
    | nil => rw [hS'] at hlenT; simp at hlenT; omega
    | cons a l => rfl
  rw [sendfileLoop_succ, hrd1]
  simp only [hne, hlenT, hwrite, not_le.mpr hk0, if_false, Bool.false_eq_true]
  -- the second iteration
  have hrd2 : sendfileRead BytesIO.fileLike (k : Int)
      ({ input := { buf := S, pos := (k : Int) },
         output := { buf := S.take k, pos := (k : Int) },
         buf := QByteArray.remove0 (S.take k) (k : Int),
         t := S.take k ++ (uninitialized (1024 * 8)).drop k,
         total := (k : Int), eof := false,
         calls := [Call.read (k : Int) (k : Int) (S.take k)] ++
                    [Call.write (S.take k) (k : Int) (k : Int)] } :
        SendState BytesIOPrivate BytesIOPrivate)
      = ReadPhase.next
          { input := { buf := S, pos := (k : Int) },
            output := { buf := S.take k, pos := (k : Int) },
            buf := QByteArray.remove0 (S.take k) (k : Int),
            t := S.take k ++ (uninitialized (1024 * 8)).drop k,
            total := (k : Int), eof := false,
            calls := [Call.read (k : Int) (k : Int) (S.take k)] ++
                      [Call.write (S.take k) (k : Int) (k : Int)] } := by
    unfold sendfileRead
    have : ¬ (0 < sendfileRemain (k : Int)
      ({ input := { buf := S, pos := (k : Int) },
         output := { buf := S.take k, pos := (k : Int) },
         buf := QByteArray.remove0 (S.take k) (k : Int),
         t := S.take k ++ (uninitialized (1024 * 8)).drop k,
         total := (k : Int), eof := false,
         calls := [Call.read (k : Int) (k : Int) (S.take k)] ++
                    [Call.write (S.take k) (k : Int) (k : Int)] } :
        SendState BytesIOPrivate BytesIOPrivate)) := by
      simp only [sendfileRemain, hk0, if_true]
      omega
    rw [if_neg this]
  have hrm : QByteArray.remove0 (S.take k) (k : Int) = [] := by
    simp only [QByteArray.remove0, Int.toNat_ofNat]
    rw [List.drop_eq_nil_iff]; omega
  rw [sendfileLoop_succ, hrd2]
  simp [hrm]

/-- Full copy of a memory source of at most 8192 bytes into an empty memory
destination with requested size -1: `sendfile` returns true and the
destination's buffer equals the source. -/
theorem sendfile_full_copy_small (S : QByteArray) (fuel : Nat) (hS : S.length ≤ 8192) :
    ∃ calls, sendfile BytesIO.fileLike BytesIO.fileLike (some (FileLike.bytes S))
      (some BytesIO.empty) (-1) (fuel + 2)
      = Run.ret { result := true, inputFile := some { buf := S, pos := (S.length : Int) },
                  outputFile := some { buf := S, pos := (S.length : Int) },
                  calls := calls } := by
  have hsz : BytesIO.fileLike.size (FileLike.bytes S) = (S.length : Int) := rfl
  rw [sendfile_some]
  simp only [show ((-1 : Int) < 0) from by decide, if_true, true_and, hsz]
  by_cases h0 : S.length = 0
  · have hnil : S = [] := List.length_eq_zero.mp h0
    subst hnil
    exact ⟨[], by simp [FileLike.bytes, BytesIO.ofBytes, BytesIO.empty]⟩
  · have hne : ¬ ((S.length : Int) = 0) := by omega
    rw [if_neg hne]
    rw [sendfileLoop_bytes_small S S.length fuel (by omega) hS (le_refl _)
      (by simp only [INT32_MAX_eq]; omega)]
    refine ⟨[Call.read (S.length : Int) (S.length : Int) S,
      Call.write S (S.length : Int) (S.length : Int)], ?_⟩
    simp

/-- Copy of the first `k` bytes, `0 < k ≤ 8192`, of a memory source holding
at least `k` bytes into an empty memory destination: `sendfile` returns true
and the destination's buffer is the first `k` bytes of the source. -/
theorem sendfile_partial_copy_small (S : QByteArray) (k : Nat) (fuel : Nat) (hk : 0 < k)
    (hk2 : k ≤ 8192) (hkS : k ≤ S.length) (hS : (S.length : Int) ≤ INT32_MAX) :
    ∃ calls, sendfile BytesIO.fileLike BytesIO.fileLike (some (FileLike.bytes S))
      (some BytesIO.empty) (k : Int) (fuel + 2)
      = Run.ret { result := true, inputFile := some { buf := S, pos := (k : Int) },
                  outputFile := some { buf := S.take k, pos := (k : Int) },
                  calls := calls } := by
  have hk0 : ¬ ((k : Int) < 0) := by omega
  rw [sendfile_some]
  simp only [hk0, if_false, false_and]
  rw [sendfileLoop_bytes_small S k fuel hk hk2 hkS hS]
  exact ⟨_, rfl⟩

/-- The loop of `sendfile` between two memory streams, entered with a scratch
block of at least 16384 bytes (the largest read the loop asks for): from a
state in which the first `p` bytes of the source have been copied, it copies
the source up to byte `k` and returns true.  `sendfile` itself enters the
loop with a scratch block of 8192 bytes. -/
theorem sendfileLoop_bytes_copy (S : QByteArray) (k : Nat) (hk : 0 < k) (hkS : k ≤ S.length)
    (hS : (S.length : Int) ≤ INT32_MAX) :
    ∀ (fuel p : Nat) (t : List Byte) (calls : List Call),
      p ≤ k → 16384 ≤ t.length → k - p < fuel →
      ∃ s1 : SendState BytesIOPrivate BytesIOPrivate,
        sendfileLoop BytesIO.fileLike BytesIO.fileLike (k : Int) fuel
            { input := { buf := S, pos := (p : Int) },
              output := { buf := S.take p, pos := (p : Int) },
              buf := [], t := t, total := (p : Int), eof := false, calls := calls }
          = Run.ret (true, s1) ∧
        s1.input = { buf := S, pos := (k : Int) } ∧
        s1.output = { buf := S.take k, pos := (k : Int) } := by
  have hS' := hS
  simp only [INT32_MAX_eq] at hS'
  have hk0 : (0 : Int) < (k : Int) := by omega
  intro fuel
  induction fuel with
  | zero => intro p t calls _ _ h; omega
  | succ fuel ih =>
    intro p t calls hpk ht hfuel
    rw [sendfileLoop_succ]
    by_cases hend : p = k
    · -- everything has been read: no read is issued and the loop ends
      subst hend
      have hrd : sendfileRead BytesIO.fileLike (p : Int)
          ({ input := { buf := S, pos := (p : Int) },
             output := { buf := S.take p, pos := (p : Int) },
             buf := [], t := t, total := (p : Int), eof := false, calls := calls } :
            SendState BytesIOPrivate BytesIOPrivate)
          = ReadPhase.next
              { input := { buf := S, pos := (p : Int) },
                output := { buf := S.take p, pos := (p : Int) },
                buf := [], t := t, total := (p : Int), eof := false, calls := calls } := by
        unfold sendfileRead
        have : ¬ (0 < sendfileRemain (p : Int)
            ({ input := { buf := S, pos := (p : Int) },
               output := { buf := S.take p, pos := (p : Int) },
               buf := [], t := t, total := (p : Int), eof := false, calls := calls } :
              SendState BytesIOPrivate BytesIOPrivate)) := by
          simp only [sendfileRemain, hk0, if_true, List.length_nil]
          omega
        rw [if_neg this]
      rw [hrd]
      refine ⟨{ input := { buf := S, pos := (p : Int) },
                output := { buf := S.take p, pos := (p : Int) },
                buf := [], t := t, total := (p : Int), eof := false, calls := calls },
        ?_, rfl, rfl⟩
      simp
    · have hp : p < k := by omega
      -- the read of this iteration delivers `r = min 16384 (k - p)` bytes
      have hrem : sendfileRemain (k : Int)
          ({ input := { buf := S, pos := (p : Int) },
             output := { buf := S.take p, pos := (p : Int) },
             buf := [], t := t, total := (p : Int), eof := false, calls := calls } :
            SendState BytesIOPrivate BytesIOPrivate) = ((k - p : Nat) : Int) := by
        simp only [sendfileRemain, hk0, if_true, List.length_nil]
        omega
      have hblock : sendfileBlock (k : Int)
          ({ input := { buf := S, pos := (p : Int) },
             output := { buf := S.take p, pos := (p : Int) },
             buf := [], t := t, total := (p : Int), eof := false, calls := calls } :
            SendState BytesIOPrivate BytesIOPrivate)
            = ((min 16384 (k - p) : Nat) : Int) := by
        unfold sendfileBlock
        rw [hrem]
        simp only [List.length_nil]
        omega
      generalize hr : min 16384 (k - p) = r at hblock
      have hr1 : 0 < r := by omega
      have hr2 : r ≤ 16384 := by omega
      have hr3 : p + r ≤ k := by omega
      have hmin : min (max ((S.length : Int) - (p : Int)) 0) (r : Int) = (r : Int) := by
        rw [max_eq_left (by omega), min_eq_right (by omega)]
      have hread : BytesIO.fileLike.read { buf := S, pos := (p : Int) } t (r : Int)
          = some ((r : Int), (S.drop p).take r ++ t.drop r,
                  { buf := S, pos := ((p + r : Nat) : Int) }) := by
        have h := BytesIO.read_eq { buf := S, pos := (p : Int) } t (r : Int) hS
          (by simp) (by simp only [INT32_MAX_eq]; omega) (by omega)
          (by simp only [hmin]; omega)
        simp only [hmin, Int.toNat_ofNat] at h
        show BytesIO.read _ _ _ = _
        rw [h]
        simp
      have hlen1 : ((S.drop p).take r).length = r := by
        simp only [List.length_take, List.length_drop]; omega
      have happ : QByteArray.append [] ((S.drop p).take r ++ t.drop r) (r : Int)
          = some ((S.drop p).take r) := by
        have h1 : ¬ ((((S.drop p).take r ++ t.drop r).length : Int) < (r : Int)) := by
          simp only [List.length_append, hlen1]; omega
        have h2 : ¬ (INT32_MAX < (([] : QByteArray).length : Int) + (r : Int)) := by
          simp only [List.length_nil, INT32_MAX_eq]; omega
        unfold QByteArray.append
        rw [if_neg h1, if_neg h2]
        simp only [Int.toNat_ofNat, List.nil_append]
        rw [List.take_left' hlen1]
      have hrd : sendfileRead BytesIO.fileLike (k : Int)
          ({ input := { buf := S, pos := (p : Int) },
             output := { buf := S.take p, pos := (p : Int) },
             buf := [], t := t, total := (p : Int), eof := false, calls := calls } :
            SendState BytesIOPrivate BytesIOPrivate)
          = ReadPhase.next
              { input := { buf := S, pos := ((p + r : Nat) : Int) },
                output := { buf := S.take p, pos := (p : Int) },
                buf := (S.drop p).take r, t := (S.drop p).take r ++ t.drop r,
                total := (p : Int) + (r : Int), eof := false,
                calls := calls ++ [Call.read (r : Int) (r : Int) ((S.drop p).take r)] } := by
        unfold sendfileRead
        rw [hrem, if_pos (by omega), if_pos ⟨rfl, by simp⟩, hblock]
        simp only [hread, happ, not_lt.mpr (Int.ofNat_nonneg r), Int.ofNat_pos.mpr hr1,
          if_false, if_true, Int.toNat_ofNat, List.take_left' hlen1]
      have hlenp : (S.take p).length = p := by simp only [List.length_take]; omega
      have hwrite : BytesIO.fileLike.write { buf := S.take p, pos := (p : Int) }
          ((S.drop p).take r) (r : Int)
          = some ((r : Int), { buf := S.take (p + r), pos := ((p + r : Nat) : Int) }) := by
        have h := BytesIO.write_eq { buf := S.take p, pos := (p : Int) } ((S.drop p).take r)
          (r : Int) (by simp) (by omega) (by omega) (by simp only [INT32_MAX_eq]; omega)
        simp only [Int.toNat_ofNat, writtenBuf_at_end _ _ _ _ hlenp hlen1] at h
        show BytesIO.write _ _ _ = _
        rw [h, List.take_add]
        simp
      have hnonempty : ((S.drop p).take r).isEmpty = false := by
        cases hS1 : (S.drop p).take r with
        | nil => rw [hS1] at hlen1; simp at hlen1; omega
        | cons a l => rfl
      have hrm : QByteArray.remove0 ((S.drop p).take r) (r : Int) = [] := by
        simp only [QByteArray.remove0, Int.toNat_ofNat]
        rw [List.drop_eq_nil_iff]; omega
      rw [hrd]
      simp only [hnonempty, hlen1, hwrite, hrm, Bool.false_eq_true, if_false,
        not_le.mpr (Int.ofNat_pos.mpr hr1)]
      have hcast : (p : Int) + (r : Int) = ((p + r : Nat) : Int) := by omega
      rw [hcast]
      apply ih (p + r) _ _ hr3
      · simp only [List.length_append, hlen1, List.length_drop]; omega
      · omega

/-- A destination that refuses every write, a memory source with at least one
unread byte, and a first read that fits the scratch block (at most 8192 unread
bytes, or a requested size between 1 and 8192): `sendfile` returns false after
one read and one write, and nothing more is called. -/
theorem sendfile_write_refused_small {τ : Type} (outF : FileLike τ) (o : τ)
    (d : BytesIOPrivate) (size : Int) (fuel : Nat)
    (hL : (d.buf.length : Int) ≤ INT32_MAX) (hc : 0 ≤ d.pos)
    (hunread : d.pos < (d.buf.length : Int))
    (hrefuse : ∀ (st : τ) (data : List Byte) (n : Int),
      ∃ st1, outF.write st data n = some (0, st1))
    (hsmall : (d.buf.length : Int) - d.pos ≤ 8192 ∨ (0 < size ∧ size ≤ 8192)) :
    ∃ (n r : Int) (got : List Byte) (o1 : τ), 0 < r ∧
      sendfile BytesIO.fileLike outF (some d) (some o) size (fuel + 1)
        = Run.ret { result := false, inputFile := some { buf := d.buf, pos := d.pos + r },
                    outputFile := some o1,
                    calls := [Call.read n r got, Call.write got r 0] } := by
  have hL' := hL
  simp only [INT32_MAX_eq] at hL'
  have hsz : BytesIO.fileLike.size d = (d.buf.length : Int) := rfl
  have hne : ¬ (size < 0 ∧ (if size < 0 then BytesIO.fileLike.size d else size) = 0) := by
    rintro ⟨h1, h2⟩
    rw [if_pos h1, hsz] at h2
    omega
  have hsmall1 : (d.buf.length : Int) - d.pos ≤ 8192 ∨
      (0 < (if size < 0 then BytesIO.fileLike.size d else size) ∧
        (if size < 0 then BytesIO.fileLike.size d else size) ≤ 8192) := by
    rcases hsmall with h | h
    · exact Or.inl h
    · right; rw [if_neg (by omega)]; exact h
  rw [sendfile_some, if_neg hne]
  generalize (if size < 0 then BytesIO.fileLike.size d else size) = size1 at hsmall1
  -- the size of the first read
  have hrem : sendfileRemain size1 (sendfileInit d o)
      = if 0 < size1 then size1 else INT64_MAX := by
    unfold sendfileRemain
    split
    · simp only [sendfileInit, List.length_nil]; omega
    · rfl
  have hrem0 : 0 < sendfileRemain size1 (sendfileInit d o) := by
    rw [hrem]; simp only [INT64_MAX_eq]; split <;> omega
  have hblock : sendfileBlock size1 (sendfileInit d o)
      = min (1024 * 16) (if 0 < size1 then size1 else INT64_MAX) := by
    unfold sendfileBlock
    rw [hrem]
    simp only [sendfileInit, List.length_nil]
    rfl
  have hblock0 : 0 < sendfileBlock size1 (sendfileInit d o) := by
    rw [hblock]; simp only [INT64_MAX_eq]; split <;> omega
  generalize hbl : sendfileBlock size1 (sendfileInit d o) = block at hblock hblock0
  have hmax : max ((d.buf.length : Int) - d.pos) 0 = (d.buf.length : Int) - d.pos :=
    max_eq_left (by omega)
  have hr1 : 0 < min (max ((d.buf.length : Int) - d.pos) 0) block := by
    rw [hmax]; omega
  have hr2 : min (max ((d.buf.length : Int) - d.pos) 0) block ≤ 8192 := by
    rw [hmax, hblock]
    simp only [INT64_MAX_eq]
    rcases hsmall1 with h | h
    · omega
    · rw [if_pos h.1]; omega
  have hr3 : min (max ((d.buf.length : Int) - d.pos) 0) block ≤ (d.buf.length : Int) - d.pos := by
    rw [hmax]; omega
  generalize hrr : min (max ((d.buf.length : Int) - d.pos) 0) block = r at hr1 hr2 hr3
  obtain ⟨rn, rfl⟩ := Int.eq_ofNat_of_zero_le (le_of_lt hr1)
  have hread : BytesIO.fileLike.read d (uninitialized (1024 * 8)) block
      = some ((rn : Int),
          (d.buf.drop d.pos.toNat).take rn ++ (uninitialized (1024 * 8)).drop rn,
          { buf := d.buf, pos := d.pos + (rn : Int) }) := by
    have h := BytesIO.read_eq d (uninitialized (1024 * 8)) block hL hc
      (by simp only [INT32_MAX_eq]; omega) (by omega)
      (by rw [hrr, uninitialized_length]; omega)
    rw [hrr] at h
    simp only [Int.toNat_ofNat] at h
    exact h
  have hlen1 : ((d.buf.drop d.pos.toNat).take rn).length = rn := by
    simp only [List.length_take, List.length_drop]; omega
  have happ : QByteArray.append []
      ((d.buf.drop d.pos.toNat).take rn ++ (uninitialized (1024 * 8)).drop rn) (rn : Int)
      = some ((d.buf.drop d.pos.toNat).take rn) := by
    have h1 : ¬ ((((d.buf.drop d.pos.toNat).take rn
        ++ (uninitialized (1024 * 8)).drop rn).length : Int) < (rn : Int)) := by
      simp only [List.length_append, hlen1]; omega
    have h2 : ¬ (INT32_MAX < (([] : QByteArray).length : Int) + (rn : Int)) := by
      simp only [List.length_nil, INT32_MAX_eq]; omega
    unfold QByteArray.append
    rw [if_neg h1, if_neg h2]
    simp only [Int.toNat_ofNat, List.nil_append]
    rw [List.take_left' hlen1]
  have hrd : sendfileRead BytesIO.fileLike size1 (sendfileInit d o)
      = ReadPhase.next
          { input := { buf := d.buf, pos := d.pos + (rn : Int) }, output := o,
            buf := (d.buf.drop d.pos.toNat).take rn,
            t := (d.buf.drop d.pos.toNat).take rn ++ (uninitialized (1024 * 8)).drop rn,
            total := 0 + (rn : Int), eof := false,
            calls := [] ++ [Call.read block (rn : Int) ((d.buf.drop d.pos.toNat).take rn)] } := by
    unfold sendfileRead
    rw [if_pos hrem0, if_pos ⟨rfl, by simp [sendfileInit]⟩, hbl]
    simp only [sendfileInit] at hread ⊢
    simp only [hread, happ, not_lt.mpr (le_of_lt hr1), hr1, if_false, if_true,
      Int.toNat_ofNat, List.take_left' hlen1]
  have hnonempty : ((d.buf.drop d.pos.toNat).take rn).isEmpty = false := by
    cases hS' : (d.buf.drop d.pos.toNat).take rn with
    | nil => rw [hS'] at hlen1; simp at hlen1; omega
    | cons a l => rfl
  obtain ⟨o1, hw⟩ := hrefuse o ((d.buf.drop d.pos.toNat).take rn) (rn : Int)
  refine ⟨block, (rn : Int), (d.buf.drop d.pos.toNat).take rn, o1, hr1, ?_⟩
  rw [sendfileLoop_succ, hrd]
  simp only [hnonempty, hlen1, hw, Bool.false_eq_true, if_false, le_refl, if_true, List.nil_append,
    List.singleton_append]

/-- C1, failing input.  A memory source seeded with 16384 bytes, an empty
memory destination, requested size -1: the first read asks the source for
16384 bytes into the 8192-byte scratch block `t`, and the run faults for every
positive iteration bound; it never returns true. -/
theorem sendfile_full_copy_overruns_scratch (fuel : Nat) :
    sendfile BytesIO.fileLike BytesIO.fileLike (some (FileLike.bytes (List.replicate 16384 0)))
      (some BytesIO.empty) (-1) (fuel + 1) = Run.fault := by
  apply sendfile_bytes_scratch_overrun
  · rw [List.length_replicate]; decide
  · left; decide

/-- C2, failing input.  The one-byte source `[7]`, an empty memory
destination, requested size `k = 0 < N = 1`: `sendfile` copies the whole
source and returns false, for every iteration bound of at least 3. -/
theorem sendfile_zero_size_copies_all (fuel : Nat) :
    sendfile BytesIO.fileLike BytesIO.fileLike (some (FileLike.bytes [7]))
      (some BytesIO.empty) 0 (fuel + 3)
      = Run.ret { result := false, inputFile := some { buf := [7], pos := 1 },
                  outputFile := some { buf := [7], pos := 1 },
                  calls := [Call.read 16384 1 [7], Call.write [7] 1 1,
                            Call.read 16384 0 []] } := by
  rw [Nat.add_comm]
  exact sendfile_mono _ _ _ _ _ 3 fuel _ (by decide!) (by simp)

/-- C9, failing input.  A memory source holding 16384 unread bytes, a
destination whose `write` always returns 0, requested size -1: the first read
overruns the 8192-byte scratch block before any write is attempted, and the
run faults for every positive iteration bound; it does not return false. -/
theorem sendfile_refused_write_overruns_scratch (fuel : Nat) :
    sendfile BytesIO.fileLike refusing (some (FileLike.bytes (List.replicate 16384 0)))
      (some 0) (-1) (fuel + 1) = Run.fault := by
  apply sendfile_bytes_scratch_overrun
  · rw [List.length_replicate]; decide
  · left; decide

/-- C10.  At any point of a transfer (any state `s` of the loop), if the
iteration issues its read (`remain > 0`, not at end of file, fewer than 8192
bytes held) and that read returns a negative value, the loop returns false in
that same iteration for every positive iteration bound: the only call added is
that read, the destination is not touched and the holding buffer keeps its
bytes. -/
theorem sendfile_read_failure {σ τ : Type} (inF : FileLike σ) (outF : FileLike τ) (size : Int)
    (fuel : Nat) (s : SendState σ τ) (ret : Int) (t1 : List Byte) (in1 : σ)
    (hrem : 0 < sendfileRemain size s) (heof : s.eof = false)
    (hroom : (s.buf.length : Int) < 1024 * 8)
    (hread : inF.read s.input s.t (sendfileBlock size s) = some (ret, t1, in1))
    (hneg : ret < 0) :
    sendfileLoop inF outF size (fuel + 1) s
      = Run.ret (false,
          { input := in1, output := s.output, buf := s.buf, t := t1, total := s.total,
            eof := s.eof,
            calls := s.calls ++ [Call.read (sendfileBlock size s) ret []] }) := by
  have hroom2 : (1024 * 8 : Int) < 1024 * 16 - (s.buf.length : Int) := by omega
  have hrd : sendfileRead inF size s = ReadPhase.abort
      { input := in1, output := s.output, buf := s.buf, t := t1, total := s.total,
        eof := s.eof, calls := s.calls ++ [Call.read (sendfileBlock size s) ret []] } := by
    unfold sendfileRead
    rw [if_pos hrem, if_pos ⟨heof, hroom2⟩]
    simp only [hread, hneg, if_true]
  rw [sendfileLoop_succ, hrd]

/-- C10 at the first iteration of a transfer of 5 bytes from a source whose
`read` returns -1. -/
theorem sendfile_read_failure_witness :
    sendfileLoop failing BytesIO.fileLike 5 1 (sendfileInit 0 BytesIO.empty)
      = Run.ret (false,
          { input := 1, output := BytesIO.empty, buf := [], t := uninitialized (1024 * 8),
            total := 0, eof := false, calls := [] ++ [Call.read 5 (-1) []] }) :=
  sendfile_read_failure failing BytesIO.fileLike 5 0 (sendfileInit 0 BytesIO.empty) (-1)
    (uninitialized (1024 * 8)) 1 (by decide) rfl (by decide) rfl (by decide)

/-- The calls the read half of an iteration adds: a failed read when it
aborts, otherwise nothing or a read that did not fail. -/
theorem sendfileRead_calls {σ τ : Type} (inF : FileLike σ) (size : Int) (s : SendState σ τ) :
    (∀ s1, sendfileRead inF size s = ReadPhase.abort s1 →
      ∃ c, s1.calls = s.calls ++ [c] ∧ c.isFailedRead = true) ∧
    (∀ s1, sendfileRead inF size s = ReadPhase.next s1 →
      ∃ added, s1.calls = s.calls ++ added ∧ ∀ c ∈ added, c.isFailedRead = false) := by
  unfold sendfileRead
  by_cases h1 : 0 < sendfileRemain size s
  · rw [if_pos h1]
    by_cases h2 : s.eof = false ∧ 1024 * 8 < 1024 * 16 - (s.buf.length : Int)
    · rw [if_pos h2]
      cases hr : inF.read s.input s.t (sendfileBlock size s) with
      | none =>
        simp only [hr]
        exact ⟨fun s1 h => (by cases h), fun s1 h => (by cases h)⟩
      | some p =>
        obtain ⟨ret, t1, in1⟩ := p
        simp only [hr]
        by_cases hneg : ret < 0
        · simp only [hneg, if_true]
          constructor
          · intro s1 h
            injection h with h
            subst h
            exact ⟨_, rfl, by simp [Call.isFailedRead, hneg]⟩
          · intro s1 h; cases h
        · simp only [hneg, if_false]
          by_cases hpos : 0 < ret
          · simp only [hpos, if_true]
            cases ha : QByteArray.append s.buf t1 ret with
            | none =>
              exact ⟨fun s1 h => (by cases h), fun s1 h => (by cases h)⟩
            | some buf1 =>
              simp only
              constructor
              · intro s1 h; cases h
              · intro s1 h
                injection h with h
                subst h
                exact ⟨_, rfl, by simp [Call.isFailedRead, hneg]⟩
          · simp only [hpos, if_false]
            constructor
            · intro s1 h; cases h
            · intro s1 h
              injection h with h
              subst h
              exact ⟨_, rfl, by simp [Call.isFailedRead, hneg]⟩
    · rw [if_neg h2]
      constructor
      · intro s1 h; cases h
      · intro s1 h
        injection h with h
        subst h
        exact ⟨[], by simp, by simp⟩
  · rw [if_neg h1]
    constructor
    · intro s1 h; cases h
    · intro s1 h
      injection h with h
      subst h
      exact ⟨[], by simp, by simp⟩

/-- The calls a run of the loop adds: either none of them is a failed read, or
the run returned false and the failed read is the last call. -/
theorem sendfileLoop_calls {σ τ : Type} (inF : FileLike σ) (outF : FileLike τ) (size : Int) :
    ∀ (n : Nat) (s : SendState σ τ) (b : Bool) (s' : SendState σ τ),
      sendfileLoop inF outF size n s = Run.ret (b, s') →
      ∃ added, s'.calls = s.calls ++ added ∧
        ((∀ c ∈ added, c.isFailedRead = false) ∨
         (b = false ∧ ∃ pre c, added = pre ++ [c] ∧ c.isFailedRead = true ∧
            ∀ c' ∈ pre, c'.isFailedRead = false)) := by
  intro n
  induction n with
  | zero => intro s b s' h; cases h
  | succ n ih =>
    intro s b s' h
    rw [sendfileLoop_succ] at h
    obtain ⟨habort, hnext⟩ := sendfileRead_calls inF size s
    cases hrd : sendfileRead inF size s with
    | fault => rw [hrd] at h; cases h
    | abort s1 =>
      rw [hrd] at h
      simp only [Run.ret.injEq, Prod.mk.injEq] at h
      obtain ⟨hb, hs⟩ := h
      subst hs
      obtain ⟨c, hc, hf⟩ := habort s1 hrd
      exact ⟨[c], hc, Or.inr ⟨hb.symm, [], c, rfl, hf, by simp⟩⟩
    | next s1 =>
      rw [hrd] at h
      obtain ⟨added1, hc1, hclean1⟩ := hnext s1 hrd
      simp only at h
      by_cases hempty : s1.buf.isEmpty = true
      · rw [if_pos hempty] at h
        simp only [Run.ret.injEq, Prod.mk.injEq] at h
        obtain ⟨_, hs⟩ := h
        subst hs
        exact ⟨added1, hc1, Or.inl hclean1⟩
      · rw [if_neg hempty] at h
        cases hw : outF.write s1.output s1.buf (s1.buf.length : Int) with
        | none => rw [hw] at h; cases h
        | some p =>
          obtain ⟨w, out1⟩ := p
          rw [hw] at h
          simp only at h
          by_cases hle : w ≤ 0
          · rw [if_pos hle] at h
            simp only [Run.ret.injEq, Prod.mk.injEq] at h
            obtain ⟨_, hs⟩ := h
            subst hs
            refine ⟨added1 ++ [Call.write s1.buf (s1.buf.length : Int) w], ?_, Or.inl ?_⟩
            · simp only [hc1, List.append_assoc]
            · intro c hc
              rcases List.mem_append.mp hc with h | h
              · exact hclean1 c h
              · simp only [List.mem_singleton] at h; subst h; rfl
          · rw [if_neg hle] at h
            obtain ⟨added2, hc2, hcase⟩ := ih _ b s' h
            simp only at hc2
            have hclean12 : ∀ c ∈ added1 ++ [Call.write s1.buf (s1.buf.length : Int) w],
                c.isFailedRead = false := by
              intro c hc
              rcases List.mem_append.mp hc with h | h
              · exact hclean1 c h
              · simp only [List.mem_singleton] at h; subst h; rfl
            refine ⟨(added1 ++ [Call.write s1.buf (s1.buf.length : Int) w]) ++ added2, ?_, ?_⟩
            · rw [hc2, hc1]; simp only [List.append_assoc]
            · rcases hcase with hclean2 | ⟨hb, pre, c, hadd, hf, hpre⟩
              · left
                intro c hc
                rcases List.mem_append.mp hc with h | h
                · exact hclean12 c h
                · exact hclean2 c h
              · right
                refine ⟨hb, (added1 ++ [Call.write s1.buf (s1.buf.length : Int) w]) ++ pre, c,
                  ?_, hf, ?_⟩
                · rw [hadd]; simp only [List.append_assoc]
                · intro c' hc'
                  rcases List.mem_append.mp hc' with h | h
                  · exact hclean12 c' h
                  · exact hpre c' h

/-- In every run of `sendfile` that returns, a read that returned a negative
value is the last call made and the result is false. -/
theorem sendfile_failed_read_is_last {σ τ : Type} (inF : FileLike σ) (outF : FileLike τ)
    (inputFile : Option σ) (outputFile : Option τ) (size : Int) (fuel : Nat)
    (r : SendResult σ τ)
    (h : sendfile inF outF inputFile outputFile size fuel = Run.ret r)
    (pre post : List Call) (n ret : Int) (got : List Byte)
    (hcalls : r.calls = pre ++ Call.read n ret got :: post) (hneg : ret < 0) :
    r.result = false ∧ post = [] := by
  have hfailed : (Call.read n ret got).isFailedRead = true := by
    simp [Call.isFailedRead, hneg]
  have hnil : ∀ {x : SendResult σ τ}, x.calls = [] → x = r → False := by
    intro x hx hxr
    rw [hxr, hcalls] at hx
    simp at hx
  cases inputFile with
  | none =>
    simp only [sendfile, Run.ret.injEq] at h
    exact (hnil rfl h).elim
  | some i =>
    cases outputFile with
    | none =>
      simp only [sendfile, Run.ret.injEq] at h
      exact (hnil rfl h).elim
    | some o =>
      rw [sendfile_some] at h
      generalize (if size < 0 then inF.size i else size) = size1 at h
      by_cases hc : size < 0 ∧ size1 = 0
      · rw [if_pos hc] at h
        simp only [Run.ret.injEq] at h
        exact (hnil rfl h).elim
      · rw [if_neg hc] at h
        cases hl : sendfileLoop inF outF size1 fuel (sendfileInit i o) with
        | nofuel => rw [hl] at h; cases h
        | fault => rw [hl] at h; cases h
        | ret p =>
          obtain ⟨b, s'⟩ := p
          rw [hl] at h
          simp only [Run.ret.injEq] at h
          subst h
          simp only at hcalls ⊢
          obtain ⟨added, hadd, hcase⟩ := sendfileLoop_calls inF outF size1 fuel _ b s' hl
          simp only [sendfileInit, List.nil_append] at hadd
          rw [hadd] at hcalls
          rcases hcase with hclean | ⟨hb, pre', c, hadd', hf, hpre⟩
          · have := hclean (Call.read n ret got) (by rw [hcalls]; simp)
            rw [this] at hfailed
            cases hfailed
          · refine ⟨hb, ?_⟩
            rw [hadd'] at hcalls
            rcases List.append_eq_append_iff.mp hcalls with ⟨a', h1, h2⟩ | ⟨c', h1, h2⟩
            · -- `pre = pre' ++ a'` and `[c] = a' ++ read :: post`
              cases a' with
              | nil =>
                simp only [List.nil_append, List.cons.injEq] at h2
                exact h2.2.symm
              | cons y a'' =>
                cases a'' with
                | nil => simp at h2
                | cons z a3 => simp at h2
            · -- `pre' = pre ++ c'` and `read :: post = c' ++ [c]`
              cases c' with
              | nil =>
                simp only [List.nil_append, List.cons.injEq] at h2
                exact h2.2
              | cons y c'' =>
                simp only [List.cons_append, List.cons.injEq] at h2
                have hy : y = Call.read n ret got := h2.1.symm
                have hmem : Call.read n ret got ∈ pre' := by
                  rw [h1, ← hy]; simp
                have := hpre _ hmem
                rw [this] at hfailed
                cases hfailed

/-! ## Points of a transfer -/

theorem bytesRead_append (xs ys : List Call) :
    bytesRead (xs ++ ys) = bytesRead xs ++ bytesRead ys := by
  induction xs with
  | nil => rfl
  | cons c cs ih => cases c <;> simp [bytesRead, ih]

theorem bytesAccepted_append (xs ys : List Call) :
    bytesAccepted (xs ++ ys) = bytesAccepted xs ++ bytesAccepted ys := by
  induction xs with
  | nil => rfl
  | cons c cs ih => cases c <;> simp [bytesAccepted, ih]

theorem requestedSizes_append (xs ys : List Call) :
    requestedSizes (xs ++ ys) = requestedSizes xs ++ requestedSizes ys := by
  induction xs with
  | nil => rfl
  | cons c cs ih => cases c <;> simp [requestedSizes, ih]

theorem remove0_nonpos (b : QByteArray) (w : Int) (hw : w ≤ 0) : b.remove0 w = b := by
  have : w.toNat = 0 := by omega
  simp [QByteArray.remove0, this]

/-- The read half of an iteration, when the loop goes on to the write half:
either no read was issued and the state is unchanged, or the read was issued
(`remain > 0`, not at end of file, fewer than 8192 bytes held) and returned a
positive count `ret`, within the scratch block, whose bytes were appended to
the holding buffer, or returned 0 and end of file was recorded. -/
theorem sendfileRead_next {σ τ : Type} (inF : FileLike σ) (size : Int) (s s1 : SendState σ τ)
    (h : sendfileRead inF size s = ReadPhase.next s1) :
    s1 = s ∨
    (0 < sendfileRemain size s ∧ s.eof = false ∧ (s.buf.length : Int) < 1024 * 8 ∧
      ∃ (ret : Int) (t1 : List Byte) (in1 : σ),
        inF.read s.input s.t (sendfileBlock size s) = some (ret, t1, in1) ∧
        ((0 < ret ∧ ret ≤ (t1.length : Int) ∧
            s1 = { input := in1, output := s.output, buf := s.buf ++ t1.take ret.toNat,
                   t := t1, total := s.total + ret, eof := s.eof,
                   calls := s.calls ++
                     [Call.read (sendfileBlock size s) ret (t1.take ret.toNat)] }) ∨
         (ret = 0 ∧
            s1 = { input := in1, output := s.output, buf := s.buf, t := t1,
                   total := s.total, eof := true,
                   calls := s.calls ++ [Call.read (sendfileBlock size s) ret []] }))) := by
  unfold sendfileRead at h
  by_cases h1 : 0 < sendfileRemain size s
  · rw [if_pos h1] at h
    by_cases h2 : s.eof = false ∧ 1024 * 8 < 1024 * 16 - (s.buf.length : Int)
    · rw [if_pos h2] at h
      right
      refine ⟨h1, h2.1, by omega, ?_⟩
      cases hr : inF.read s.input s.t (sendfileBlock size s) with
      | none => simp only [hr] at h; cases h
      | some p =>
        obtain ⟨ret, t1, in1⟩ := p
        simp only [hr] at h
        refine ⟨ret, t1, in1, rfl, ?_⟩
        by_cases hneg : ret < 0
        · simp only [hneg, if_true] at h; cases h
        · simp only [hneg, if_false] at h
          by_cases hpos : 0 < ret
          · simp only [hpos, if_true] at h
            left
            unfold QByteArray.append at h
            by_cases hlen : (t1.length : Int) < ret
            · simp only [hlen, if_true] at h; cases h
            · simp only [hlen, if_false] at h
              by_cases hcap : INT32_MAX < (s.buf.length : Int) + ret
              · simp only [hcap, if_true] at h; cases h
              · simp only [hcap, if_false] at h
                injection h with h
                exact ⟨hpos, not_lt.mp hlen, h.symm⟩
          · simp only [hpos, if_false] at h
            right
            injection h with h
            exact ⟨by omega, h.symm⟩
    · rw [if_neg h2] at h
      left; injection h with h; exact h.symm
  · rw [if_neg h1] at h
    left; injection h with h; exact h.symm

/-- The read half of an iteration, when it makes `sendfile` return false: the
read was issued and returned a negative count; only the source, the scratch
block and the calls changed. -/
theorem sendfileRead_abort {σ τ : Type} (inF : FileLike σ) (size : Int) (s s1 : SendState σ τ)
    (h : sendfileRead inF size s = ReadPhase.abort s1) :
    ∃ (ret : Int) (t1 : List Byte) (in1 : σ),
      inF.read s.input s.t (sendfileBlock size s) = some (ret, t1, in1) ∧ ret < 0 ∧
      s1 = { input := in1, output := s.output, buf := s.buf, t := t1, total := s.total,
             eof := s.eof, calls := s.calls ++ [Call.read (sendfileBlock size s) ret []] } := by
  unfold sendfileRead at h
  by_cases h1 : 0 < sendfileRemain size s
  · rw [if_pos h1] at h
    by_cases h2 : s.eof = false ∧ 1024 * 8 < 1024 * 16 - (s.buf.length : Int)
    · rw [if_pos h2] at h
      cases hr : inF.read s.input s.t (sendfileBlock size s) with
      | none => simp only [hr] at h; cases h
      | some p =>
        obtain ⟨ret, t1, in1⟩ := p
        simp only [hr] at h
        refine ⟨ret, t1, in1, rfl, ?_⟩
        by_cases hneg : ret < 0
        · simp only [hneg, if_true] at h
          injection h with h
          exact ⟨hneg, h.symm⟩
        · simp only [hneg, if_false] at h
          by_cases hpos : 0 < ret
          · simp only [hpos, if_true] at h
            cases ha : QByteArray.append s.buf t1 ret with
            | none => rw [ha] at h; cases h
            | some b => rw [ha] at h; cases h
          · simp only [hpos, if_false] at h; cases h
    · rw [if_neg h2] at h; cases h
  · rw [if_neg h1] at h; cases h

/-- One iteration that goes on, spelled out. -/
theorem sendfileNext_some {σ τ : Type} (inF : FileLike σ) (outF : FileLike τ) (size : Int)
    (s s2 : SendState σ τ) (h : sendfileNext inF outF size s = some s2) :
    ∃ (s1 : SendState σ τ) (w : Int) (out1 : τ),
      sendfileRead inF size s = ReadPhase.next s1 ∧ s1.buf.isEmpty = false ∧
      outF.write s1.output s1.buf (s1.buf.length : Int) = some (w, out1) ∧ 0 < w ∧
      s2 = afterWrite s1 w out1 := by
  unfold sendfileNext at h
  cases hrd : sendfileRead inF size s with
  | fault => rw [hrd] at h; cases h
  | abort s1 => rw [hrd] at h; cases h
  | next s1 =>
    rw [hrd] at h
    simp only at h
    by_cases hb : s1.buf.isEmpty = true
    · rw [if_pos hb] at h; cases h
    · rw [if_neg hb] at h
      cases hw : outF.write s1.output s1.buf (s1.buf.length : Int) with
      | none => rw [hw] at h; cases h
      | some p =>
        obtain ⟨w, out1⟩ := p
        rw [hw] at h
        simp only at h
        by_cases hle : w ≤ 0
        · rw [if_pos hle] at h; cases h
        · rw [if_neg hle] at h
          injection h with h
          exact ⟨s1, w, out1, rfl, by simpa using hb, hw, by omega, h.symm⟩

/-- An iteration that goes on hands its state to the rest of the loop. -/
theorem sendfileLoop_next {σ τ : Type} (inF : FileLike σ) (outF : FileLike τ) (size : Int)
    (fuel : Nat) (s s2 : SendState σ τ) (h : sendfileNext inF outF size s = some s2) :
    sendfileLoop inF outF size (fuel + 1) s = sendfileLoop inF outF size fuel s2 := by
  obtain ⟨s1, w, out1, hrd, hb, hw, hpos, rfl⟩ := sendfileNext_some inF outF size s s2 h
  rw [sendfileLoop_succ, hrd]
  simp only [hb, hw, not_le.mpr hpos, if_false, Bool.false_eq_true]
  rfl

/-- An iteration that does not go on ends the loop: with fuel for it the
loop returns or faults. -/
theorem sendfileLoop_last {σ τ : Type} (inF : FileLike σ) (outF : FileLike τ) (size : Int)
    (fuel : Nat) (s : SendState σ τ) (h : sendfileNext inF outF size s = none) :
    sendfileLoop inF outF size (fuel + 1) s ≠ Run.nofuel := by
  unfold sendfileNext at h
  rw [sendfileLoop_succ]
  cases hrd : sendfileRead inF size s with
  | fault => simp
  | abort s1 => simp
  | next s1 =>
    rw [hrd] at h
    simp only at h ⊢
    by_cases hb : s1.buf.isEmpty = true
    · rw [if_pos hb]; simp
    · rw [if_neg hb] at h ⊢
      cases hw : outF.write s1.output s1.buf (s1.buf.length : Int) with
      | none => simp
      | some p =>
        obtain ⟨w, out1⟩ := p
        rw [hw] at h
        simp only at h ⊢
        by_cases hle : w ≤ 0
        · rw [if_pos hle]; simp
        · rw [if_neg hle] at h; cases h

/-- `sendfileReach` follows the loop: from the state reached at the head of
iteration `n`, the rest of the fuel continues the same run. -/
theorem sendfileLoop_reach {σ τ : Type} (inF : FileLike σ) (outF : FileLike τ) (size : Int)
    (m : Nat) : ∀ (n : Nat) (s s' : SendState σ τ),
      sendfileReach inF outF size n s = some s' →
      sendfileLoop inF outF size (n + m) s = sendfileLoop inF outF size m s' := by
  intro n
  induction n with
  | zero =>
    intro s s' h
    simp only [sendfileReach, Option.some.injEq] at h
    subst h
    simp
  | succ n ih =>
    intro s s' h
    simp only [sendfileReach] at h
    cases hn : sendfileNext inF outF size s with
    | none => rw [hn] at h; cases h
    | some s2 =>
      rw [hn] at h
      simp only at h
      have e : n + 1 + m = (n + m) + 1 := by omega
      rw [e, sendfileLoop_next inF outF size (n + m) s s2 hn]
      exact ih s2 s' h

/-- A property of the loop state that the read half and the write of an
iteration preserve holds at the head of every iteration. -/
theorem sendfileReach_invariant {σ τ : Type} (inF : FileLike σ) (outF : FileLike τ)
    (size : Int) (P : SendState σ τ → Prop)
    (hread : ∀ s s1, P s → sendfileRead inF size s = ReadPhase.next s1 → P s1)
    (hwrite : ∀ s1 w out1, P s1 →
      outF.write s1.output s1.buf (s1.buf.length : Int) = some (w, out1) →
      P (afterWrite s1 w out1)) :
    ∀ (n : Nat) (s s' : SendState σ τ), P s →
      sendfileReach inF outF size n s = some s' → P s' := by
  intro n
  induction n with
  | zero =>
    intro s s' hP h
    simp only [sendfileReach, Option.some.injEq] at h
    subst h
    exact hP
  | succ n ih =>
    intro s s' hP h
    simp only [sendfileReach] at h
    cases hn : sendfileNext inF outF size s with
    | none => rw [hn] at h; cases h
    | some s2 =>
      rw [hn] at h
      obtain ⟨s1, w, out1, hrd, _, hw, _, rfl⟩ := sendfileNext_some inF outF size s s2 hn
      exact ih _ s' (hwrite s1 w out1 (hread s s1 hP hrd) hw) h

/-- A property of the loop state that the read half (also when it aborts) and
the write of an iteration preserve holds in the state the loop returns. -/
theorem sendfileLoop_invariant {σ τ : Type} (inF : FileLike σ) (outF : FileLike τ)
    (size : Int) (P : SendState σ τ → Prop)
    (hread : ∀ s s1, P s → sendfileRead inF size s = ReadPhase.next s1 → P s1)
    (habort : ∀ s s1, P s → sendfileRead inF size s = ReadPhase.abort s1 → P s1)
    (hwrite : ∀ s1 w out1, P s1 →
      outF.write s1.output s1.buf (s1.buf.length : Int) = some (w, out1) →
      P (afterWrite s1 w out1)) :
    ∀ (fuel : Nat) (s : SendState σ τ) (b : Bool) (s' : SendState σ τ), P s →
      sendfileLoop inF outF size fuel s = Run.ret (b, s') → P s' := by
  intro fuel
  induction fuel with
  | zero => intro s b s' _ h; cases h
  | succ fuel ih =>
    intro s b s' hP h
    rw [sendfileLoop_succ] at h
    cases hrd : sendfileRead inF size s with
    | fault => rw [hrd] at h; cases h
    | abort s1 =>
      rw [hrd] at h
      simp only [Run.ret.injEq, Prod.mk.injEq] at h
      rw [← h.2]
      exact habort s s1 hP hrd
    | next s1 =>
      rw [hrd] at h
      have hP1 := hread s s1 hP hrd
      simp only at h
      by_cases hb : s1.buf.isEmpty = true
      · rw [if_pos hb] at h
        simp only [Run.ret.injEq, Prod.mk.injEq] at h
        rw [← h.2]; exact hP1
      · rw [if_neg hb] at h
        cases hw : outF.write s1.output s1.buf (s1.buf.length : Int) with
        | none => rw [hw] at h; cases h
        | some p =>
          obtain ⟨w, out1⟩ := p
          rw [hw] at h
          simp only at h
          have hP2 := hwrite s1 w out1 hP1 hw
          by_cases hle : w ≤ 0
          · rw [if_pos hle] at h
            simp only [Run.ret.injEq, Prod.mk.injEq] at h
            rw [← h.2]
            have e : afterWrite s1 w out1 =
                { input := s1.input, output := out1, buf := s1.buf, t := s1.t,
                  total := s1.total, eof := s1.eof,
                  calls := s1.calls ++ [Call.write s1.buf (s1.buf.length : Int) w] } := by
              simp only [afterWrite, remove0_nonpos _ _ hle]
            rw [← e]; exact hP2
          · rw [if_neg hle] at h
            exact ih _ b s' hP2 h

theorem ordered_initial_segment {σ τ : Type} {s : SendState σ τ} (h : sendfileOrdered s) :
    bytesAccepted s.calls <+: bytesRead s.calls :=
  ⟨s.buf, h.symm⟩

theorem ordered_read {σ τ : Type} (inF : FileLike σ) (size : Int) (s s1 : SendState σ τ)
    (hs : sendfileOrdered s) (h : sendfileRead inF size s = ReadPhase.next s1) : sendfileOrdered s1 := by
  unfold sendfileOrdered at hs ⊢
  rcases sendfileRead_next inF size s s1 h with rfl | ⟨_, _, _, ret, t1, in1, _, hcase⟩
  · exact hs
  · rcases hcase with ⟨_, _, rfl⟩ | ⟨_, rfl⟩
    · simp only [bytesRead_append, bytesAccepted_append, bytesRead, bytesAccepted, hs,
        List.append_nil, List.append_assoc]
    · simp only [bytesRead_append, bytesAccepted_append, bytesRead, bytesAccepted, hs,
        List.append_nil]

theorem ordered_abort {σ τ : Type} (inF : FileLike σ) (size : Int) (s s1 : SendState σ τ)
    (hs : sendfileOrdered s) (h : sendfileRead inF size s = ReadPhase.abort s1) : sendfileOrdered s1 := by
  unfold sendfileOrdered at hs ⊢
  obtain ⟨ret, t1, in1, _, _, rfl⟩ := sendfileRead_abort inF size s s1 h
  simp only [bytesRead_append, bytesAccepted_append, bytesRead, bytesAccepted, hs,
    List.append_nil]

theorem ordered_write {σ τ : Type} (s1 : SendState σ τ) (w : Int) (out1 : τ)
    (hs : sendfileOrdered s1) : sendfileOrdered (afterWrite s1 w out1) := by
  unfold sendfileOrdered at hs ⊢
  simp only [afterWrite, bytesRead_append, bytesAccepted_append, bytesRead, bytesAccepted, hs,
    List.append_nil, QByteArray.remove0, List.append_assoc, List.take_append_drop]

/-- The loop returns true only with an empty holding buffer. -/
theorem sendfileLoop_true_empty {σ τ : Type} (inF : FileLike σ) (outF : FileLike τ)
    (size : Int) : ∀ (fuel : Nat) (s s' : SendState σ τ),
      sendfileLoop inF outF size fuel s = Run.ret (true, s') → s'.buf = [] := by
  intro fuel
  induction fuel with
  | zero => intro s s' h; cases h
  | succ fuel ih =>
    intro s s' h
    rw [sendfileLoop_succ] at h
    cases hrd : sendfileRead inF size s with
    | fault => rw [hrd] at h; cases h
    | abort s1 =>
      rw [hrd] at h
      simp only [Run.ret.injEq, Prod.mk.injEq] at h
      cases h.1
    | next s1 =>
      rw [hrd] at h
      simp only at h
      by_cases hb : s1.buf.isEmpty = true
      · rw [if_pos hb] at h
        simp only [Run.ret.injEq, Prod.mk.injEq] at h
        rw [← h.2]
        exact List.isEmpty_iff.mp hb
      · rw [if_neg hb] at h
        cases hw : outF.write s1.output s1.buf (s1.buf.length : Int) with
        | none => rw [hw] at h; cases h
        | some p =>
          obtain ⟨w, out1⟩ := p
          rw [hw] at h
          simp only at h
          by_cases hle : w ≤ 0
          · rw [if_pos hle] at h
            simp only [Run.ret.injEq, Prod.mk.injEq] at h
            cases h.1
          · rw [if_neg hle] at h
            exact ih _ s' h

/-- C11.  Whatever the two backends do: at the head of every iteration of a
transfer, and after the read of every iteration, the bytes accepted by the
destination are a prefix of the bytes read from the source, in the same
order, and what is missing is exactly the holding buffer; in every run of
`sendfile` that returns they are a prefix, and when it returns true the two
are equal. -/
theorem sendfile_ordering {σ τ : Type} (inF : FileLike σ) (outF : FileLike τ) (i : σ) (o : τ) :
    (∀ (sz : Int) (n : Nat) (s : SendState σ τ),
      sendfileReach inF outF sz n (sendfileInit i o) = some s →
      (bytesAccepted s.calls <+: bytesRead s.calls ∧
        bytesRead s.calls = bytesAccepted s.calls ++ s.buf) ∧
      ∀ s1, sendfileRead inF sz s = ReadPhase.next s1 →
        (bytesAccepted s1.calls <+: bytesRead s1.calls ∧
          bytesRead s1.calls = bytesAccepted s1.calls ++ s1.buf)) ∧
    (∀ (size : Int) (fuel : Nat) (r : SendResult σ τ),
      sendfile inF outF (some i) (some o) size fuel = Run.ret r →
      bytesAccepted r.calls <+: bytesRead r.calls ∧
      (r.result = true → bytesAccepted r.calls = bytesRead r.calls)) := by
  have hinit : sendfileOrdered (sendfileInit i o) := by
    simp [sendfileOrdered, sendfileInit, bytesRead, bytesAccepted]
  constructor
  · intro sz n s h
    have hs : sendfileOrdered s :=
      sendfileReach_invariant inF outF sz sendfileOrdered (ordered_read inF sz)
        (fun s1 w out1 h1 _ => ordered_write s1 w out1 h1) n _ s hinit h
    refine ⟨⟨(ordered_initial_segment hs), hs⟩, ?_⟩
    intro s1 h1
    have hs1 := ordered_read inF sz s s1 hs h1
    exact ⟨(ordered_initial_segment hs1), hs1⟩
  · intro size fuel r h
    rw [sendfile_some] at h
    generalize (if size < 0 then inF.size i else size) = sz at h
    by_cases hc : size < 0 ∧ sz = 0
    · rw [if_pos hc] at h
      simp only [Run.ret.injEq] at h
      subst h
      exact ⟨List.prefix_refl _, fun _ => rfl⟩
    · rw [if_neg hc] at h
      cases hl : sendfileLoop inF outF sz fuel (sendfileInit i o) with
      | nofuel => rw [hl] at h; cases h
      | fault => rw [hl] at h; cases h
      | ret p =>
        obtain ⟨b, s'⟩ := p
        rw [hl] at h
        simp only [Run.ret.injEq] at h
        subst h
        have hs' : sendfileOrdered s' :=
          sendfileLoop_invariant inF outF sz sendfileOrdered (ordered_read inF sz)
            (ordered_abort inF sz) (fun s1 w out1 h1 _ => ordered_write s1 w out1 h1)
            fuel _ b s' hinit hl
        refine ⟨(ordered_initial_segment hs'), ?_⟩
        intro hb
        simp only at hb
        subst hb
        have hempty := sendfileLoop_true_empty inF outF sz fuel _ s' hl
        have := hs'
        unfold sendfileOrdered at this
        rw [hempty, List.append_nil] at this
        exact this.symm

/-- C11 at the transfer of the memory source `[1, 2, 3]` into a destination
that accepts one byte per write: one read and three partial writes. -/
theorem sendfile_ordering_witness :
    bytesAccepted [Call.read 3 3 [1, 2, 3], Call.write [1, 2, 3] 3 1, Call.write [2, 3] 2 1,
        Call.write [3] 1 1]
      <+: bytesRead [Call.read 3 3 [1, 2, 3], Call.write [1, 2, 3] 3 1, Call.write [2, 3] 2 1,
        Call.write [3] 1 1] ∧
    (true = true →
      bytesAccepted [Call.read 3 3 [1, 2, 3], Call.write [1, 2, 3] 3 1, Call.write [2, 3] 2 1,
          Call.write [3] 1 1]
        = bytesRead [Call.read 3 3 [1, 2, 3], Call.write [1, 2, 3] 3 1, Call.write [2, 3] 2 1,
          Call.write [3] 1 1]) :=
  (sendfile_ordering BytesIO.fileLike trickle (FileLike.bytes [1, 2, 3]) []).2 (-1) 4
    { result := true, inputFile := some { buf := [1, 2, 3], pos := 3 },
      outputFile := some [1, 2, 3],
      calls := [Call.read 3 3 [1, 2, 3], Call.write [1, 2, 3] 3 1, Call.write [2, 3] 2 1,
        Call.write [3] 1 1] }
    (by decide!)

/-- `sendfile` on two non-null handles runs the loop with the resolved
size. -/
theorem sendfile_resolved {σ τ : Type} (inF : FileLike σ) (outF : FileLike τ) (i : σ) (o : τ)
    (size : Int) (fuel : Nat) (h : ¬ (size < 0 ∧ sendfileSize inF i size = 0)) :
    sendfile inF outF (some i) (some o) size fuel =
      match sendfileLoop inF outF (sendfileSize inF i size) fuel (sendfileInit i o) with
      | Run.ret (b, s) =>
        Run.ret { result := b, inputFile := some s.input, outputFile := some s.output,
                  calls := s.calls }
      | Run.fault => Run.fault
      | Run.nofuel => Run.nofuel := by
  rw [sendfile_some]
  unfold sendfileSize at h ⊢
  exact if_neg h

/-- The size of every read the loop issues: `min(16384 - buf.size(), remain)`,
which is positive and at most 16384, and exceeds the 8192 bytes of the scratch
block as soon as more than 8192 bytes remain. -/
theorem sendfileBlock_bounds {σ τ : Type} (size : Int) (s : SendState σ τ)
    (hrem : 0 < sendfileRemain size s) (hroom : (s.buf.length : Int) < 1024 * 8) :
    0 < sendfileBlock size s ∧ sendfileBlock size s ≤ 1024 * 16 ∧
      (1024 * 8 < sendfileRemain size s → 1024 * 8 < sendfileBlock size s) := by
  unfold sendfileBlock
  refine ⟨lt_min (by omega) hrem, le_trans (min_le_left _ _) (by omega), ?_⟩
  intro h
  exact lt_min (by omega) h

/-- C14, failing input.  A memory source of 3 bytes, an empty memory
destination, requested size 20000: both reads that `sendfile` issues ask for
16384 bytes, twice the 8192 bytes of the scratch block they write into. -/
theorem sendfile_requests_exceed_scratch (fuel : Nat) :
    sendfile BytesIO.fileLike BytesIO.fileLike (some (FileLike.bytes [1, 2, 3]))
      (some BytesIO.empty) 20000 (fuel + 2)
      = Run.ret { result := false, inputFile := some { buf := [1, 2, 3], pos := 3 },
                  outputFile := some { buf := [1, 2, 3], pos := 3 },
                  calls := [Call.read 16384 3 [1, 2, 3], Call.write [1, 2, 3] 3 3,
                            Call.read 16384 0 []] } ∧
    requestedSizes [Call.read 16384 3 [1, 2, 3], Call.write [1, 2, 3] 3 3,
                    Call.read 16384 0 []] = [16384, 16384] := by
  refine ⟨?_, rfl⟩
  rw [Nat.add_comm]
  exact sendfile_mono _ _ _ _ _ 2 fuel _ (by decide!) (by simp)

/-- C12, counterexample.  The memory source `[1, 2, 3]` with its cursor at 1,
an empty memory destination, requested size -1: the size is resolved to 3, two
bytes are copied, the loop ends with an empty holding buffer and no failed
call, and `sendfile` returns false although the caller's size was negative. -/
theorem sendfile_negative_size_counterexample :
    sendfile BytesIO.fileLike BytesIO.fileLike (some { buf := [1, 2, 3], pos := 1 })
      (some BytesIO.empty) (-1) 2
      = Run.ret { result := false, inputFile := some { buf := [1, 2, 3], pos := 3 },
                  outputFile := some { buf := [2, 3], pos := 2 },
                  calls := [Call.read 3 2 [2, 3], Call.write [2, 3] 2 2,
                            Call.read 1 0 []] } := by
  decide!

/-- C12, amended.  When the loop of `sendfile` ends because the holding buffer
is empty after the read half of an iteration (iteration `n` of the transfer,
no read or write having failed), `sendfile` returns true if and only if the
resolved size, `size()` of the source when the caller's size is negative and
the caller's size otherwise, is negative or the running total equals the
resolved size. -/
theorem sendfile_success_condition {σ τ : Type} (inF : FileLike σ) (outF : FileLike τ)
    (i : σ) (o : τ) (size : Int) (n fuel : Nat) (s s1 : SendState σ τ)
    (hres : ¬ (size < 0 ∧ sendfileSize inF i size = 0))
    (hreach : sendfileReach inF outF (sendfileSize inF i size) n (sendfileInit i o) = some s)
    (hread : sendfileRead inF (sendfileSize inF i size) s = ReadPhase.next s1)
    (hempty : s1.buf = []) :
    sendfile inF outF (some i) (some o) size (n + (fuel + 1))
      = Run.ret { result := decide (sendfileSize inF i size < 0 ∨
                              s1.total = sendfileSize inF i size),
                  inputFile := some s1.input, outputFile := some s1.output,
                  calls := s1.calls } := by
  rw [sendfile_resolved inF outF i o size _ hres,
    sendfileLoop_reach inF outF _ (fuel + 1) n _ s hreach, sendfileLoop_succ, hread]
  simp [hempty]

/-- C12, amended, at a source that reports a size of 5 and is at end of
stream, with requested size -1: the first read returns 0, the loop ends with
an empty holding buffer, and the result is false because 0 bytes are not the 5
of the resolved size. -/
theorem sendfile_success_condition_witness :
    sendfile (sizeOnly 5) BytesIO.fileLike (some ()) (some BytesIO.empty) (-1) 1
      = Run.ret { result := false, inputFile := some (), outputFile := some BytesIO.empty,
                  calls := [Call.read 5 0 []] } :=
  sendfile_success_condition (sizeOnly 5) BytesIO.fileLike () BytesIO.empty (-1) 0 0
    (sendfileInit () BytesIO.empty)
    { input := (), output := BytesIO.empty, buf := [], t := uninitialized (1024 * 8),
      total := 0, eof := true,
      calls := [] ++ [Call.read (sendfileBlock (sendfileSize (sizeOnly 5) () (-1))
        (sendfileInit () BytesIO.empty)) 0 []] }
    (by decide) rfl rfl rfl

/-- A `read` on a memory stream never returns more than requested. -/
theorem BytesIO.read_le (d : BytesIOPrivate) (data : List Byte) (n r : Int)
    (data1 : List Byte) (d1 : BytesIOPrivate)
    (h : BytesIO.fileLike.read d data n = some (r, data1, d1)) : r ≤ n := by
  obtain ⟨hr, _, _⟩ := BytesIO.read_some d data n r data1 d1 h
  rw [hr]
  exact min_le_right _ _

theorem buffer_bound_read {σ τ : Type} (inF : FileLike σ) (size : Int)
    (hret : ∀ (st : σ) (data : List Byte) (n ret : Int) (data1 : List Byte) (st1 : σ),
      inF.read st data n = some (ret, data1, st1) → ret ≤ n)
    (s s1 : SendState σ τ) (hs : s.buf.length ≤ 16384)
    (h : sendfileRead inF size s = ReadPhase.next s1) : s1.buf.length ≤ 16384 := by
  rcases sendfileRead_next inF size s s1 h with rfl | ⟨hrem, _, hroom, ret, t1, in1, hr, hcase⟩
  · exact hs
  · rcases hcase with ⟨hpos, hlen, rfl⟩ | ⟨_, rfl⟩
    · have h1 := hret _ _ _ _ _ _ hr
      have h2 := (sendfileBlock_bounds size s hrem hroom).2.1
      have h3 : sendfileBlock size s ≤ 1024 * 16 - (s.buf.length : Int) := min_le_left _ _
      simp only [List.length_append, List.length_take]
      omega
    · exact hs

theorem buffer_bound_write {σ τ : Type} (s1 : SendState σ τ) (w : Int) (out1 : τ)
    (hs : s1.buf.length ≤ 16384) : (afterWrite s1 w out1).buf.length ≤ 16384 := by
  simp only [afterWrite, QByteArray.remove0, List.length_drop]
  omega

theorem buffer_bound_abort {σ τ : Type} (inF : FileLike σ) (size : Int)
    (s s1 : SendState σ τ) (hs : s.buf.length ≤ 16384)
    (h : sendfileRead inF size s = ReadPhase.abort s1) : s1.buf.length ≤ 16384 := by
  obtain ⟨ret, t1, in1, _, _, rfl⟩ := sendfileRead_abort inF size s s1 h
  exact hs

/-- C15.  For every source whose `read` returns at most the requested count,
every destination and every size the loop runs with: the holding buffer holds
at most 16384 bytes at the head of every iteration, after the read of every
iteration, and in the state the loop returns, however many bytes are
transferred. -/
theorem sendfile_buffer_bounded {σ τ : Type} (inF : FileLike σ) (outF : FileLike τ)
    (i : σ) (o : τ) (sz : Int)
    (hret : ∀ (st : σ) (data : List Byte) (n ret : Int) (data1 : List Byte) (st1 : σ),
      inF.read st data n = some (ret, data1, st1) → ret ≤ n) :
    (∀ (n : Nat) (s : SendState σ τ),
      sendfileReach inF outF sz n (sendfileInit i o) = some s →
      s.buf.length ≤ 16384 ∧
      ∀ s1, sendfileRead inF sz s = ReadPhase.next s1 → s1.buf.length ≤ 16384) ∧
    (∀ (fuel : Nat) (b : Bool) (s' : SendState σ τ),
      sendfileLoop inF outF sz fuel (sendfileInit i o) = Run.ret (b, s') →
      s'.buf.length ≤ 16384) := by
  have hinit : (sendfileInit i o : SendState σ τ).buf.length ≤ 16384 := by
    simp [sendfileInit]
  constructor
  · intro n s h
    have hs : s.buf.length ≤ 16384 :=
      sendfileReach_invariant inF outF sz (fun s => s.buf.length ≤ 16384)
        (fun s s1 h1 h2 => buffer_bound_read inF sz hret s s1 h1 h2)
        (fun s1 w out1 h1 _ => buffer_bound_write s1 w out1 h1) n _ s hinit h
    exact ⟨hs, fun s1 h1 => buffer_bound_read inF sz hret s s1 hs h1⟩
  · intro fuel b s' h
    exact sendfileLoop_invariant inF outF sz (fun s => s.buf.length ≤ 16384)
      (fun s s1 h1 h2 => buffer_bound_read inF sz hret s s1 h1 h2)
      (fun s s1 h1 h2 => buffer_bound_abort inF sz s s1 h1 h2)
      (fun s1 w out1 h1 _ => buffer_bound_write s1 w out1 h1) fuel _ b s' hinit h

/-- C15 at a memory source, a destination that accepts one byte per write and
a transfer of 5 bytes. -/
theorem sendfile_buffer_bounded_witness :
    (∀ (n : Nat) (s : SendState BytesIOPrivate (List Byte)),
      sendfileReach BytesIO.fileLike trickle 5 n (sendfileInit (FileLike.bytes [1, 2, 3]) [])
        = some s →
      s.buf.length ≤ 16384 ∧
      ∀ s1, sendfileRead BytesIO.fileLike 5 s = ReadPhase.next s1 → s1.buf.length ≤ 16384) ∧
    (∀ (fuel : Nat) (b : Bool) (s' : SendState BytesIOPrivate (List Byte)),
      sendfileLoop BytesIO.fileLike trickle 5 fuel (sendfileInit (FileLike.bytes [1, 2, 3]) [])
        = Run.ret (b, s') →
      s'.buf.length ≤ 16384) :=
  sendfile_buffer_bounded BytesIO.fileLike trickle (FileLike.bytes [1, 2, 3]) [] 5
    BytesIO.read_le

/-- The loop returns true only when the size it runs with is negative or
`total` equals it. -/
theorem sendfileLoop_true_total {σ τ : Type} (inF : FileLike σ) (outF : FileLike τ)
    (size : Int) : ∀ (fuel : Nat) (s s' : SendState σ τ),
      sendfileLoop inF outF size fuel s = Run.ret (true, s') →
      size < 0 ∨ s'.total = size := by
  intro fuel
  induction fuel with
  | zero => intro s s' h; cases h
  | succ fuel ih =>
    intro s s' h
    rw [sendfileLoop_succ] at h
    cases hrd : sendfileRead inF size s with
    | fault => rw [hrd] at h; cases h
    | abort s1 =>
      rw [hrd] at h
      simp only [Run.ret.injEq, Prod.mk.injEq] at h
      cases h.1
    | next s1 =>
      rw [hrd] at h
      simp only at h
      by_cases hb : s1.buf.isEmpty = true
      · rw [if_pos hb] at h
        simp only [Run.ret.injEq, Prod.mk.injEq, decide_eq_true_eq] at h
        rw [← h.2]
        exact h.1
      · rw [if_neg hb] at h
        cases hw : outF.write s1.output s1.buf (s1.buf.length : Int) with
        | none => rw [hw] at h; cases h
        | some p =>
          obtain ⟨w, out1⟩ := p
          rw [hw] at h
          simp only at h
          by_cases hle : w ≤ 0
          · rw [if_pos hle] at h
            simp only [Run.ret.injEq, Prod.mk.injEq] at h
            cases h.1
          · rw [if_neg hle] at h
            exact ih _ s' h

theorem withinTarget_read {σ τ : Type} (inF : FileLike σ) (k : Int) (hk : 0 < k)
    (hret : ∀ (st : σ) (data : List Byte) (n ret : Int) (data1 : List Byte) (st1 : σ),
      inF.read st data n = some (ret, data1, st1) → ret ≤ n)
    (s s1 : SendState σ τ) (hs : WithinTarget k s)
    (h : sendfileRead inF k s = ReadPhase.next s1) : WithinTarget k s1 := by
  unfold WithinTarget at hs ⊢
  rcases sendfileRead_next inF k s s1 h with rfl | ⟨hrem, _, hroom, ret, t1, in1, hr, hcase⟩
  · exact hs
  · rcases hcase with ⟨hpos, hlen, rfl⟩ | ⟨_, rfl⟩
    · have h1 := hret _ _ _ _ _ _ hr
      have h3 : sendfileBlock k s ≤ sendfileRemain k s := min_le_right _ _
      have h4 : sendfileRemain k s = k - (s.buf.length : Int) - s.total := by
        unfold sendfileRemain at hrem ⊢
        rw [if_pos hk] at hrem ⊢
        exact max_eq_right (by
          by_contra hneg
          rw [max_eq_left (by omega)] at hrem
          exact lt_irrefl _ hrem)
      simp only [bytesRead_append, bytesRead, List.length_append, List.length_take,
        List.append_nil]
      constructor
      · push_cast
        omega
      · omega
    · simp only [bytesRead_append, bytesRead, List.append_nil]
      exact hs

theorem withinTarget_abort {σ τ : Type} (inF : FileLike σ) (k : Int)
    (s s1 : SendState σ τ) (hs : WithinTarget k s)
    (h : sendfileRead inF k s = ReadPhase.abort s1) : WithinTarget k s1 := by
  unfold WithinTarget at hs ⊢
  obtain ⟨ret, t1, in1, _, _, rfl⟩ := sendfileRead_abort inF k s s1 h
  simp only [bytesRead_append, bytesRead, List.append_nil]
  exact hs

theorem withinTarget_write {σ τ : Type} (k : Int) (s1 : SendState σ τ) (w : Int) (out1 : τ)
    (hs : WithinTarget k s1) : WithinTarget k (afterWrite s1 w out1) := by
  unfold WithinTarget at hs ⊢
  simp only [afterWrite, bytesRead_append, bytesRead, List.append_nil]
  exact hs

theorem cursorFollows_read {τ : Type} (d : BytesIOPrivate) (size : Int)
    (s s1 : SendState BytesIOPrivate τ) (hs : CursorFollows d s)
    (h : sendfileRead BytesIO.fileLike size s = ReadPhase.next s1) : CursorFollows d s1 := by
  unfold CursorFollows at hs ⊢
  rcases sendfileRead_next _ size s s1 h with rfl | ⟨_, _, _, ret, t1, in1, hr, hcase⟩
  · exact hs
  · obtain ⟨_, _, hin⟩ := BytesIO.read_some _ _ _ _ _ _ hr
    rcases hcase with ⟨_, _, rfl⟩ | ⟨h0, rfl⟩
    · simp only [hin, hs, add_assoc]
    · simp only [hin, hs, h0, add_zero]

theorem cursorFollows_abort {τ : Type} (d : BytesIOPrivate) (size : Int)
    (s s1 : SendState BytesIOPrivate τ)
    (h : sendfileRead BytesIO.fileLike size s = ReadPhase.abort s1) : CursorFollows d s1 := by
  obtain ⟨ret, t1, in1, hr, hneg, rfl⟩ := sendfileRead_abort _ size s s1 h
  obtain ⟨_, h0, _⟩ := BytesIO.read_some _ _ _ _ _ _ hr
  omega

theorem cursorFollows_write {τ : Type} (d : BytesIOPrivate)
    (s1 : SendState BytesIOPrivate τ) (w : Int) (out1 : τ) (hs : CursorFollows d s1) :
    CursorFollows d (afterWrite s1 w out1) := by
  unfold CursorFollows at hs ⊢
  simpa [afterWrite] using hs

/-- C19.  For every positive target size `k`.  With a source whose `read`
returns at most the requested count, whatever the destination accepts: at the
head of every iteration and after the read of every iteration, `total` is the
number of bytes read from the source and is at most `k`, and a read that is
issued asks for at most `k` minus the bytes already read.  And with a memory
source whose cursor is `c`: when `sendfile` returns true the cursor is exactly
`c + k`. -/
theorem sendfile_no_over_read (k : Int) (hk : 0 < k) :
    (∀ (σ τ : Type) (inF : FileLike σ) (outF : FileLike τ) (i : σ) (o : τ),
      (∀ (st : σ) (data : List Byte) (n ret : Int) (data1 : List Byte) (st1 : σ),
        inF.read st data n = some (ret, data1, st1) → ret ≤ n) →
      ∀ (n : Nat) (s : SendState σ τ),
        sendfileReach inF outF k n (sendfileInit i o) = some s →
        ((bytesRead s.calls).length : Int) = s.total ∧ s.total ≤ k ∧
        (0 < sendfileRemain k s → sendfileBlock k s ≤ k - s.total) ∧
        ∀ s1, sendfileRead inF k s = ReadPhase.next s1 →
          ((bytesRead s1.calls).length : Int) = s1.total ∧ s1.total ≤ k) ∧
    (∀ (τ : Type) (outF : FileLike τ) (d : BytesIOPrivate) (o : τ) (fuel : Nat)
      (r : SendResult BytesIOPrivate τ),
      sendfile BytesIO.fileLike outF (some d) (some o) k fuel = Run.ret r →
      r.result = true → r.inputFile = some { buf := d.buf, pos := d.pos + k }) := by
  constructor
  · intro σ τ inF outF i o hret n s h
    have hinit : WithinTarget k (sendfileInit i o : SendState σ τ) := by
      simp only [WithinTarget, sendfileInit, bytesRead, List.length_nil]
      exact ⟨rfl, le_of_lt hk⟩
    have hs : WithinTarget k s :=
      sendfileReach_invariant inF outF k (WithinTarget k)
        (fun s s1 h1 h2 => withinTarget_read inF k hk hret s s1 h1 h2)
        (fun s1 w out1 h1 _ => withinTarget_write k s1 w out1 h1) n _ s hinit h
    refine ⟨hs.1, hs.2, ?_, ?_⟩
    · intro hrem
      have h3 : sendfileBlock k s ≤ sendfileRemain k s := min_le_right _ _
      have h4 : sendfileRemain k s ≤ k - s.total := by
        unfold sendfileRemain at hrem ⊢
        rw [if_pos hk] at hrem ⊢
        rcases le_total 0 (k - (s.buf.length : Int) - s.total) with hle | hle
        · rw [max_eq_right hle]; omega
        · rw [max_eq_left hle] at hrem; exact absurd hrem (lt_irrefl _)
      omega
    · intro s1 h1
      exact withinTarget_read inF k hk hret s s1 hs h1
  · intro τ outF d o fuel r h hres
    have hnot : ¬ (k < 0 ∧ (if k < 0 then BytesIO.fileLike.size d else k) = 0) := by
      intro hc; omega
    rw [sendfile_some, if_neg hnot, if_neg (by omega)] at h
    cases hl : sendfileLoop BytesIO.fileLike outF k fuel (sendfileInit d o) with
    | nofuel => rw [hl] at h; cases h
    | fault => rw [hl] at h; cases h
    | ret p =>
      obtain ⟨b, s'⟩ := p
      rw [hl] at h
      simp only [Run.ret.injEq] at h
      subst h
      simp only at hres ⊢
      subst hres
      have hinit : CursorFollows d (sendfileInit d o : SendState BytesIOPrivate τ) := by
        simp [CursorFollows, sendfileInit]
      have hs' : CursorFollows d s' :=
        sendfileLoop_invariant BytesIO.fileLike outF k (CursorFollows d)
          (cursorFollows_read d k) (fun s s1 _ h2 => cursorFollows_abort d k s s1 h2)
          (fun s1 w out1 h1 _ => cursorFollows_write d s1 w out1 h1) fuel _ true s' hinit hl
      have htot := sendfileLoop_true_total BytesIO.fileLike outF k fuel _ s' hl
      unfold CursorFollows at hs'
      rw [hs']
      rcases htot with hneg | heq
      · omega
      · rw [heq]

theorem sendfile_no_over_read_witness :
    (0 : Int) < 2 ∧
    (some { buf := [1, 2, 3], pos := 2 } : Option BytesIOPrivate)
      = some { buf := (FileLike.bytes [1, 2, 3]).buf, pos := (FileLike.bytes [1, 2, 3]).pos + 2 } :=
  ⟨by decide,
   (sendfile_no_over_read 2 (by decide)).2 (List Byte) trickle (FileLike.bytes [1, 2, 3]) [] 4
    { result := true, inputFile := some { buf := [1, 2, 3], pos := 2 },
      outputFile := some [1, 2],
      calls := [Call.read 2 2 [1, 2], Call.write [1, 2] 2 1, Call.write [2] 1 1] }
    (by decide!) rfl⟩

/-- Every positive read of a memory stream uses up as many unread bytes as it
returns. -/
theorem BytesIO.unread_budget (st : BytesIOPrivate) (data : List Byte) (n ret : Int)
    (data1 : List Byte) (st1 : BytesIOPrivate)
    (h : BytesIO.fileLike.read st data n = some (ret, data1, st1)) (hpos : 0 < ret) :
    (( BytesIO.unread st1 : Nat) : Int) + ret ≤ (( BytesIO.unread st : Nat) : Int) := by
  obtain ⟨hr, _, hst⟩ := BytesIO.read_some st data n ret data1 st1 h
  have h1 : ret ≤ max ((st.buf.length : Int) - st.pos) 0 := by
    rw [hr]; exact min_le_left _ _
  have h2 : 0 < (st.buf.length : Int) - st.pos := by
    by_contra hc
    rw [max_eq_right (by omega)] at h1
    omega
  rw [max_eq_left (by omega)] at h1
  subst hst
  simp only [ BytesIO.unread]
  omega

/-- An iteration after which the loop goes on lowers the measure. -/
theorem sendfileMeasure_decreases {σ τ : Type} (inF : FileLike σ) (outF : FileLike τ)
    (μ : σ → Nat)
    (hμ : ∀ (st : σ) (data : List Byte) (n ret : Int) (data1 : List Byte) (st1 : σ),
      inF.read st data n = some (ret, data1, st1) → 0 < ret →
      ((μ st1 : Nat) : Int) + ret ≤ ((μ st : Nat) : Int))
    (size : Int) (s s2 : SendState σ τ) (h : sendfileNext inF outF size s = some s2) :
    sendfileMeasure μ s2 < sendfileMeasure μ s := by
  obtain ⟨s1, w, out1, hrd, hb, _, hw, rfl⟩ := sendfileNext_some inF outF size s s2 h
  have hne : 0 < s1.buf.length := by
    cases hl : s1.buf with
    | nil => rw [hl] at hb; cases hb
    | cons a l => simp
  have hdrop : (s1.buf.remove0 w).length < s1.buf.length := by
    simp only [QByteArray.remove0, List.length_drop]
    omega
  have hstep : sendfileMeasure μ (afterWrite s1 w out1) < sendfileMeasure μ s1 := by
    simp only [sendfileMeasure, afterWrite]
    omega
  refine lt_of_lt_of_le hstep ?_
  rcases sendfileRead_next inF size s s1 hrd with rfl | ⟨_, heof, _, ret, t1, in1, hr, hcase⟩
  · exact le_refl _
  · rcases hcase with ⟨hpos, hlen, rfl⟩ | ⟨_, rfl⟩
    · have hb := hμ _ _ _ _ _ _ hr hpos
      simp only [sendfileMeasure, heof, List.length_append, List.length_take, Bool.false_eq_true,
        if_false]
      omega
    · simp only [sendfileMeasure, heof, Bool.false_eq_true, if_false, if_true]
      omega

/-- With more iterations allowed than the measure, the loop ends: it returns
or stops at a fault. -/
theorem sendfileLoop_ends {σ τ : Type} (inF : FileLike σ) (outF : FileLike τ)
    (μ : σ → Nat)
    (hμ : ∀ (st : σ) (data : List Byte) (n ret : Int) (data1 : List Byte) (st1 : σ),
      inF.read st data n = some (ret, data1, st1) → 0 < ret →
      ((μ st1 : Nat) : Int) + ret ≤ ((μ st : Nat) : Int))
    (size : Int) : ∀ (fuel : Nat) (s : SendState σ τ), sendfileMeasure μ s < fuel →
      sendfileLoop inF outF size fuel s ≠ Run.nofuel := by
  intro fuel
  induction fuel with
  | zero => intro s h; omega
  | succ fuel ih =>
    intro s h
    cases hn : sendfileNext inF outF size s with
    | none => exact sendfileLoop_last inF outF size fuel s hn
    | some s2 =>
      rw [sendfileLoop_next inF outF size fuel s s2 hn]
      have := sendfileMeasure_decreases inF outF μ hμ size s s2 hn
      exact ih s2 (by omega)

/-- The run of `sendfile` ends when the loop is allowed more iterations than
twice the byte budget of the source plus one. -/
theorem sendfile_ends {σ τ : Type} (inF : FileLike σ) (outF : FileLike τ)
    (μ : σ → Nat)
    (hμ : ∀ (st : σ) (data : List Byte) (n ret : Int) (data1 : List Byte) (st1 : σ),
      inF.read st data n = some (ret, data1, st1) → 0 < ret →
      ((μ st1 : Nat) : Int) + ret ≤ ((μ st : Nat) : Int))
    (i : σ) (o : τ) (size : Int) (fuel : Nat) (hfuel : 2 * μ i + 2 ≤ fuel) :
    sendfile inF outF (some i) (some o) size fuel ≠ Run.nofuel := by
  rw [sendfile_some]
  generalize (if size < 0 then inF.size i else size) = sz
  by_cases hc : size < 0 ∧ sz = 0
  · rw [if_pos hc]; simp
  · rw [if_neg hc]
    have hm : sendfileMeasure μ (sendfileInit i o : SendState σ τ) < fuel := by
      simp only [sendfileMeasure, sendfileInit, Bool.false_eq_true, if_false, List.length_nil]
      omega
    have := sendfileLoop_ends inF outF μ hμ sz fuel _ hm
    cases hl : sendfileLoop inF outF sz fuel (sendfileInit i o) with
    | nofuel => exact absurd hl this
    | fault => simp
    | ret p => obtain ⟨b, s⟩ := p; simp

/-- The read half of an iteration, when it faults: the read was issued and
either faulted itself or returned a positive count that is more than the
scratch block holds or than the holding buffer can take. -/
theorem sendfileRead_fault {σ τ : Type} (inF : FileLike σ) (size : Int) (s : SendState σ τ)
    (h : sendfileRead inF size s = ReadPhase.fault) :
    0 < sendfileRemain size s ∧ s.eof = false ∧ (s.buf.length : Int) < 1024 * 8 ∧
    (inF.read s.input s.t (sendfileBlock size s) = none ∨
      ∃ (ret : Int) (t1 : List Byte) (in1 : σ),
        inF.read s.input s.t (sendfileBlock size s) = some (ret, t1, in1) ∧ 0 < ret ∧
        ((t1.length : Int) < ret ∨ INT32_MAX < (s.buf.length : Int) + ret)) := by
  unfold sendfileRead at h
  by_cases h1 : 0 < sendfileRemain size s
  · rw [if_pos h1] at h
    by_cases h2 : s.eof = false ∧ 1024 * 8 < 1024 * 16 - (s.buf.length : Int)
    · rw [if_pos h2] at h
      refine ⟨h1, h2.1, by omega, ?_⟩
      cases hr : inF.read s.input s.t (sendfileBlock size s) with
      | none => left; rfl
      | some p =>
        obtain ⟨ret, t1, in1⟩ := p
        simp only [hr] at h
        right
        refine ⟨ret, t1, in1, rfl, ?_⟩
        by_cases hneg : ret < 0
        · simp only [hneg, if_true] at h; cases h
        · simp only [hneg, if_false] at h
          by_cases hpos : 0 < ret
          · simp only [hpos, if_true] at h
            refine ⟨hpos, ?_⟩
            unfold QByteArray.append at h
            by_cases hlen : (t1.length : Int) < ret
            · exact Or.inl hlen
            · simp only [hlen, if_false] at h
              by_cases hcap : INT32_MAX < (s.buf.length : Int) + ret
              · exact Or.inr hcap
              · simp only [hcap, if_false] at h; cases h
          · simp only [hpos, if_false] at h; cases h
    · rw [if_neg h2] at h; cases h
  · rw [if_neg h1] at h; cases h

/-- A memory source with at most 8192 unread bytes is read without a fault,
and stays such a source. -/
theorem sourceFits_read {τ : Type} (d : BytesIOPrivate) (hd : 0 ≤ d.pos)
    (hL : (d.buf.length : Int) ≤ INT32_MAX) (hun : (d.buf.length : Int) - d.pos ≤ 8192)
    (size : Int) (s : SendState BytesIOPrivate τ) (hs : SourceFits d s) :
    sendfileRead BytesIO.fileLike size s ≠ ReadPhase.fault ∧
    (∀ s1, sendfileRead BytesIO.fileLike size s = ReadPhase.next s1 → SourceFits d s1) ∧
    (∀ s1, sendfileRead BytesIO.fileLike size s = ReadPhase.abort s1 → SourceFits d s1) := by
  obtain ⟨hbuf, hlo, hhi, ht⟩ := hs
  have hread : ∀ n : Int, 0 < n →
      BytesIO.fileLike.read s.input s.t n =
        some (min (max ((s.input.buf.length : Int) - s.input.pos) 0) n,
          (s.input.buf.drop s.input.pos.toNat).take
              (min (max ((s.input.buf.length : Int) - s.input.pos) 0) n).toNat
            ++ s.t.drop (min (max ((s.input.buf.length : Int) - s.input.pos) 0) n).toNat,
          { buf := s.input.buf,
            pos := s.input.pos + min (max ((s.input.buf.length : Int) - s.input.pos) 0) n }) := by
    intro n hn
    have hle : min (max ((s.input.buf.length : Int) - s.input.pos) 0) n
        ≤ max ((s.input.buf.length : Int) - s.input.pos) 0 := min_le_left _ _
    have hmax : max ((s.input.buf.length : Int) - s.input.pos) 0 ≤ 8192 :=
      max_le (by rw [hbuf]; omega) (by omega)
    exact BytesIO.read_eq s.input s.t n (by rw [hbuf]; exact hL) (by omega)
      (le_trans hhi hL) (le_of_lt hn) (by rw [ht]; push_cast; omega)
  have hfacts : ∀ (n ret : Int) (t1 : List Byte) (in1 : BytesIOPrivate), 0 < n →
      BytesIO.fileLike.read s.input s.t n = some (ret, t1, in1) →
      ret ≤ 8192 ∧ 0 ≤ ret ∧ t1.length = 8192 ∧ in1.buf = d.buf ∧ d.pos ≤ in1.pos ∧
        in1.pos ≤ (d.buf.length : Int) := by
    intro n ret t1 in1 hn hr
    rw [hread n hn] at hr
    simp only [Option.some.injEq, Prod.mk.injEq] at hr
    obtain ⟨h1, h2, h3⟩ := hr
    have hmax : max ((s.input.buf.length : Int) - s.input.pos) 0
        = (s.input.buf.length : Int) - s.input.pos := max_eq_left (by rw [hbuf]; omega)
    have hle : ret ≤ (s.input.buf.length : Int) - s.input.pos := by
      rw [← h1, hmax]; exact min_le_left _ _
    have hge : 0 ≤ ret := by
      rw [← h1]; exact le_min (le_max_right _ _) (le_of_lt hn)
    rw [h1] at h2 h3
    rw [hbuf] at hle
    subst h3
    refine ⟨by omega, hge, ?_, hbuf, by simp only; omega, by simp only; omega⟩
    rw [← h2]
    simp only [List.length_append, List.length_take, List.length_drop, ht, hbuf]
    omega
  refine ⟨?_, ?_, ?_⟩
  · intro hf
    obtain ⟨hrem, _, hroom, hcase⟩ := sendfileRead_fault _ size s hf
    have hb := (sendfileBlock_bounds size s hrem hroom).1
    rcases hcase with hnone | ⟨ret, t1, in1, hr, hpos, hbad⟩
    · rw [hread _ hb] at hnone; cases hnone
    · obtain ⟨h1, _, h3, _⟩ := hfacts _ ret t1 in1 hb hr
      simp only [INT32_MAX_eq] at hbad
      omega
  · intro s1 h
    rcases sendfileRead_next _ size s s1 h with rfl | ⟨hrem, _, hroom, ret, t1, in1, hr, hcase⟩
    · exact ⟨hbuf, hlo, hhi, ht⟩
    · have hb := (sendfileBlock_bounds size s hrem hroom).1
      obtain ⟨_, _, h3, h4, h5, h6⟩ := hfacts _ ret t1 in1 hb hr
      rcases hcase with ⟨_, _, rfl⟩ | ⟨_, rfl⟩
      · exact ⟨h4, h5, h6, h3⟩
      · exact ⟨h4, h5, h6, h3⟩
  · intro s1 h
    obtain ⟨ret, t1, in1, hr, hneg, rfl⟩ := sendfileRead_abort _ size s s1 h
    obtain ⟨_, h0, _⟩ := BytesIO.read_some _ _ _ _ _ _ hr
    omega

/-- An iteration that does not go on, whose read does not fault and whose
write, if it is made, does not fault: the loop returns. -/
theorem sendfileLoop_last_ret {σ τ : Type} (inF : FileLike σ) (outF : FileLike τ) (size : Int)
    (fuel : Nat) (s : SendState σ τ) (h : sendfileNext inF outF size s = none)
    (hrf : sendfileRead inF size s ≠ ReadPhase.fault)
    (hwf : ∀ s1, sendfileRead inF size s = ReadPhase.next s1 →
      outF.write s1.output s1.buf (s1.buf.length : Int) ≠ none) :
    ∃ p, sendfileLoop inF outF size (fuel + 1) s = Run.ret p := by
  unfold sendfileNext at h
  rw [sendfileLoop_succ]
  cases hrd : sendfileRead inF size s with
  | fault => exact absurd hrd hrf
  | abort s1 => exact ⟨_, rfl⟩
  | next s1 =>
    rw [hrd] at h
    simp only at h ⊢
    by_cases hb : s1.buf.isEmpty = true
    · rw [if_pos hb]; exact ⟨_, rfl⟩
    · rw [if_neg hb] at h ⊢
      cases hw : outF.write s1.output s1.buf (s1.buf.length : Int) with
      | none => exact absurd hw (hwf s1 hrd)
      | some p =>
        obtain ⟨w, out1⟩ := p
        rw [hw] at h
        simp only at h ⊢
        by_cases hle : w ≤ 0
        · rw [if_pos hle]; exact ⟨_, rfl⟩
        · rw [if_neg hle] at h; cases h

/-- With a source that has a byte budget and a property `P` of the loop's
states that the loop keeps and under which neither the read nor the write of
an iteration faults: the loop returns once it is allowed more iterations than
the measure. -/
theorem sendfileLoop_returns {σ τ : Type} (inF : FileLike σ) (outF : FileLike τ)
    (μ : σ → Nat)
    (hμ : ∀ (st : σ) (data : List Byte) (n ret : Int) (data1 : List Byte) (st1 : σ),
      inF.read st data n = some (ret, data1, st1) → 0 < ret →
      ((μ st1 : Nat) : Int) + ret ≤ ((μ st : Nat) : Int))
    (size : Int) (P : SendState σ τ → Prop)
    (hfault : ∀ s, P s → sendfileRead inF size s ≠ ReadPhase.fault)
    (hread : ∀ s s1, P s → sendfileRead inF size s = ReadPhase.next s1 → P s1)
    (hwf : ∀ s1, P s1 → outF.write s1.output s1.buf (s1.buf.length : Int) ≠ none)
    (hwrite : ∀ s1 w out1, P s1 →
      outF.write s1.output s1.buf (s1.buf.length : Int) = some (w, out1) →
      P (afterWrite s1 w out1)) :
    ∀ (fuel : Nat) (s : SendState σ τ), P s → sendfileMeasure μ s < fuel →
      ∃ p, sendfileLoop inF outF size fuel s = Run.ret p := by
  intro fuel
  induction fuel with
  | zero => intro s _ h; omega
  | succ fuel ih =>
    intro s hs h
    cases hn : sendfileNext inF outF size s with
    | none =>
      exact sendfileLoop_last_ret inF outF size fuel s hn (hfault s hs)
        (fun s1 hrd => hwf s1 (hread s s1 hs hrd))
    | some s2 =>
      rw [sendfileLoop_next inF outF size fuel s s2 hn]
      have hdec := sendfileMeasure_decreases inF outF μ hμ size s s2 hn
      obtain ⟨s1, w, out1, hrd, _, hw, _, rfl⟩ := sendfileNext_some inF outF size s s2 hn
      exact ih _ (hwrite s1 w out1 (hread s s1 hs hrd) hw) (by omega)

/-- The same for `sendfile`: with `2 * μ + 2` iterations allowed it
returns. -/
theorem sendfile_returns {σ τ : Type} (inF : FileLike σ) (outF : FileLike τ)
    (μ : σ → Nat)
    (hμ : ∀ (st : σ) (data : List Byte) (n ret : Int) (data1 : List Byte) (st1 : σ),
      inF.read st data n = some (ret, data1, st1) → 0 < ret →
      ((μ st1 : Nat) : Int) + ret ≤ ((μ st : Nat) : Int))
    (P : SendState σ τ → Prop)
    (hfault : ∀ sz s, P s → sendfileRead inF sz s ≠ ReadPhase.fault)
    (hread : ∀ sz s s1, P s → sendfileRead inF sz s = ReadPhase.next s1 → P s1)
    (hwf : ∀ s1, P s1 → outF.write s1.output s1.buf (s1.buf.length : Int) ≠ none)
    (hwrite : ∀ s1 w out1, P s1 →
      outF.write s1.output s1.buf (s1.buf.length : Int) = some (w, out1) →
      P (afterWrite s1 w out1))
    (i : σ) (o : τ) (size : Int) (fuel : Nat) (hinit : P (sendfileInit i o))
    (hfuel : 2 * μ i + 2 ≤ fuel) :
    ∃ r, sendfile inF outF (some i) (some o) size fuel = Run.ret r := by
  rw [sendfile_some]
  generalize (if size < 0 then inF.size i else size) = sz
  by_cases hc : size < 0 ∧ sz = 0
  · rw [if_pos hc]; exact ⟨_, rfl⟩
  · rw [if_neg hc]
    have hm : sendfileMeasure μ (sendfileInit i o : SendState σ τ) < fuel := by
      simp only [sendfileMeasure, sendfileInit, Bool.false_eq_true, if_false, List.length_nil]
      omega
    obtain ⟨p, hp⟩ := sendfileLoop_returns inF outF μ hμ sz P (hfault sz) (hread sz) hwf hwrite
      fuel _ hinit hm
    obtain ⟨b, s⟩ := p
    rw [hp]
    exact ⟨_, rfl⟩

theorem sourceFits_write {τ : Type} (d : BytesIOPrivate) (s1 : SendState BytesIOPrivate τ)
    (w : Int) (out1 : τ) (hs : SourceFits d s1) : SourceFits d (afterWrite s1 w out1) := by
  unfold SourceFits at hs ⊢
  simpa [afterWrite] using hs

/-- From a memory source with at most 8192 unread bytes, into a destination
whose `write` does not fault, for every requested size: `sendfile` returns
within `2 * unread + 2` iterations. -/
theorem sendfile_returns_small {τ : Type} (outF : FileLike τ) (d : BytesIOPrivate) (o : τ)
    (size : Int) (fuel : Nat) (hd : 0 ≤ d.pos) (hd2 : d.pos ≤ (d.buf.length : Int))
    (hL : (d.buf.length : Int) ≤ INT32_MAX) (hun : (d.buf.length : Int) - d.pos ≤ 8192)
    (hwf : ∀ (st : τ) (data : List Byte) (n : Int), outF.write st data n ≠ none)
    (hfuel : 2 * BytesIO.unread d + 2 ≤ fuel) :
    ∃ r, sendfile BytesIO.fileLike outF (some d) (some o) size fuel = Run.ret r :=
  sendfile_returns BytesIO.fileLike outF BytesIO.unread BytesIO.unread_budget (SourceFits d)
    (fun sz s hs => (sourceFits_read d hd hL hun sz s hs).1)
    (fun sz s s1 hs h => (sourceFits_read d hd hL hun sz s hs).2.1 s1 h)
    (fun _ _ => hwf _ _ _)
    (fun s1 w out1 hs _ => sourceFits_write d s1 w out1 hs)
    d o size fuel ⟨rfl, le_refl _, hd2, by simp only [sendfileInit, uninitialized_length]⟩ hfuel

theorem copyFits_read (d : BytesIOPrivate) (hd : 0 ≤ d.pos)
    (hL : (d.buf.length : Int) ≤ INT32_MAX) (hun : (d.buf.length : Int) - d.pos ≤ 8192)
    (size : Int) (s s1 : SendState BytesIOPrivate BytesIOPrivate) (hs : CopyFits d s)
    (h : sendfileRead BytesIO.fileLike size s = ReadPhase.next s1) : CopyFits d s1 := by
  obtain ⟨hsrc, hpos, hcap⟩ := hs
  refine ⟨(sourceFits_read d hd hL hun size s hsrc).2.1 s1 h, ?_⟩
  rcases sendfileRead_next _ size s s1 h with rfl | ⟨_, _, _, ret, t1, in1, hr, hcase⟩
  · exact ⟨hpos, hcap⟩
  · rcases hcase with ⟨hret, hlen, rfl⟩ | ⟨h0, rfl⟩
    · have hb := BytesIO.unread_budget _ _ _ _ _ _ hr hret
      simp only [List.length_append, List.length_take]
      refine ⟨hpos, ?_⟩
      push_cast
      omega
    · obtain ⟨_, _, hin⟩ := BytesIO.read_some _ _ _ _ _ _ hr
      subst hin
      simp only [h0, add_zero]
      exact ⟨hpos, hcap⟩

theorem copyFits_write_some (d : BytesIOPrivate)
    (s1 : SendState BytesIOPrivate BytesIOPrivate) (hs : CopyFits d s1) :
    BytesIO.fileLike.write s1.output s1.buf (s1.buf.length : Int)
      = some ((s1.buf.length : Int),
          { buf := writtenBuf s1.output.buf s1.output.pos.toNat s1.buf
              ((s1.buf.length : Int)).toNat,
            pos := s1.output.pos + (s1.buf.length : Int) }) := by
  obtain ⟨_, hpos, hcap⟩ := hs
  exact BytesIO.write_eq s1.output s1.buf (s1.buf.length : Int) hpos (by omega) (le_refl _)
    (by omega)

theorem copyFits_write (d : BytesIOPrivate) (s1 : SendState BytesIOPrivate BytesIOPrivate)
    (w : Int) (out1 : BytesIOPrivate) (hs : CopyFits d s1)
    (hw : BytesIO.fileLike.write s1.output s1.buf (s1.buf.length : Int) = some (w, out1)) :
    CopyFits d (afterWrite s1 w out1) := by
  rw [copyFits_write_some d s1 hs] at hw
  simp only [Option.some.injEq, Prod.mk.injEq] at hw
  obtain ⟨hw1, hw2⟩ := hw
  obtain ⟨hsrc, hpos, hcap⟩ := hs
  refine ⟨sourceFits_write d s1 w out1 hsrc, ?_⟩
  subst hw1 hw2
  simp only [afterWrite, QByteArray.remove0, List.length_drop]
  constructor
  · omega
  · omega

/-- Memory to memory: from a memory source with at most 8192 unread bytes
into a memory destination whose cursor leaves room for them in 32 bits, for
every requested size, `sendfile` returns within `2 * unread + 2` iterations. -/
theorem sendfile_bytes_returns_small (d o : BytesIOPrivate) (size : Int) (fuel : Nat)
    (hd : 0 ≤ d.pos) (hd2 : d.pos ≤ (d.buf.length : Int))
    (hL : (d.buf.length : Int) ≤ INT32_MAX) (hun : (d.buf.length : Int) - d.pos ≤ 8192)
    (ho : 0 ≤ o.pos) (ho2 : o.pos + 8192 ≤ INT32_MAX)
    (hfuel : 2 * BytesIO.unread d + 2 ≤ fuel) :
    ∃ r, sendfile BytesIO.fileLike BytesIO.fileLike (some d) (some o) size fuel = Run.ret r := by
  refine sendfile_returns BytesIO.fileLike BytesIO.fileLike BytesIO.unread BytesIO.unread_budget
    (CopyFits d)
    (fun sz s hs => (sourceFits_read d hd hL hun sz s hs.1).1)
    (fun sz s s1 hs h => copyFits_read d hd hL hun sz s s1 hs h)
    (fun s1 hs => by rw [copyFits_write_some d s1 hs]; simp)
    (fun s1 w out1 hs hw => copyFits_write d s1 w out1 hs hw)
    d o size fuel ⟨⟨rfl, le_refl _, hd2, by simp only [sendfileInit, uninitialized_length]⟩, ?_⟩
    hfuel
  simp only [sendfileInit, List.length_nil, BytesIO.unread]
  refine ⟨ho, ?_⟩
  push_cast
  omega

/-- C17, failing inputs.  A memory source seeded with more than 8192 bytes,
any destination, a requested size that is negative, zero or above 8192: the
first iteration of the loop asks the source for more than the 8192 bytes of the
scratch block `t` and the read overruns it.  The run is that fault for every
positive iteration bound, and for no iteration bound does `sendfile` return:
the copy loop is not brought to an end by a `return`. -/
theorem sendfile_overrun_never_returns {τ : Type} (outF : FileLike τ) (o : τ) (S : QByteArray)
    (size : Int) (hS : 8192 < S.length) (hsize : size ≤ 0 ∨ 8192 < size) :
    (∀ fuel : Nat, sendfile BytesIO.fileLike outF (some (FileLike.bytes S)) (some o) size
      (fuel + 1) = Run.fault) ∧
    (∀ (fuel : Nat) (r : SendResult BytesIOPrivate τ),
      sendfile BytesIO.fileLike outF (some (FileLike.bytes S)) (some o) size fuel
        ≠ Run.ret r) := by
  have hfault := fun fuel => sendfile_bytes_scratch_overrun outF o S size fuel hS hsize
  refine ⟨hfault, ?_⟩
  intro fuel r h
  have h1 := sendfile_mono BytesIO.fileLike outF (some (FileLike.bytes S)) (some o) size fuel 1
    (Run.ret r) h (by simp)
  rw [Nat.add_comm] at h1
  have h2 := hfault fuel
  rw [Nat.add_comm] at h2
  rw [h2] at h1
  cases h1

/-- C17 at the source of 16384 zero bytes with an empty memory destination
and requested size -1. -/
theorem sendfile_overrun_never_returns_witness :
    8192 < (List.replicate 16384 (0 : Byte)).length ∧
    (∀ fuel : Nat, sendfile BytesIO.fileLike BytesIO.fileLike
      (some (FileLike.bytes (List.replicate 16384 0))) (some BytesIO.empty) (-1) (fuel + 1)
        = Run.fault) ∧
    (∀ (fuel : Nat) (r : SendResult BytesIOPrivate BytesIOPrivate),
      sendfile BytesIO.fileLike BytesIO.fileLike
        (some (FileLike.bytes (List.replicate 16384 0))) (some BytesIO.empty) (-1) fuel
        ≠ Run.ret r) :=
  ⟨by rw [List.length_replicate]; decide,
   sendfile_overrun_never_returns BytesIO.fileLike BytesIO.empty (List.replicate 16384 0) (-1)
    (by rw [List.length_replicate]; decide) (Or.inl (by decide))⟩

/-- With the cursor inside the buffer, the buffer a write leaves behind is
made of old bytes and written bytes only: the old bytes before the cursor, the
bytes written, the old bytes behind them. -/
theorem writtenBuf_no_gap (buf : QByteArray) (c : Nat) (D : List Byte) (k : Nat)
    (hc : c ≤ buf.length) :
    writtenBuf buf c D k = buf.take c ++ D.take k ++ buf.drop (c + k) := by
  unfold writtenBuf
  rw [List.take_append_of_le_length hc]
  congr 1
  by_cases h : c + k ≤ buf.length
  · have : c + k - buf.length = 0 := by omega
    simp [this, uninitialized]
  · have h1 : (buf ++ uninitialized (c + k - buf.length)).length ≤ c + k := by
      rw [List.length_append, uninitialized_length]; omega
    rw [List.drop_of_length_le h1, List.drop_of_length_le (by omega)]

/-- A `write` of a non-negative size that does not fault had room in 32 bits
for the new cursor and read its bytes inside the caller's object. -/
theorem BytesIO.write_fits (d : BytesIOPrivate) (D : List Byte) (k : Int)
    (p : Int × BytesIOPrivate) (h : BytesIO.write d D k = some p) (hc : 0 ≤ d.pos)
    (hk : 0 ≤ k) : d.pos + k ≤ INT32_MAX ∧ k ≤ (D.length : Int) := by
  unfold BytesIO.write at h
  by_cases hf : FitsInt32 (d.pos + k)
  · refine ⟨hf.2, ?_⟩
    by_cases hz : k = 0
    · omega
    · simp only [hf, not_true_eq_false, if_false] at h
      unfold memcpy at h
      have h3 : ¬ k < 0 := by omega
      have h4 : ¬ (d.pos < 0 ∨ (0 : Int) < 0) := by omega
      simp only [hz, h3, h4, if_false] at h
      by_contra hD
      have h5 : (D.length : Int) < 0 + k := by omega
      simp only [h5, or_true, if_true] at h
      cases h
  · simp only [hf, not_false_eq_true, if_true] at h
    cases h

/-- A `write` of a non-negative size on a memory stream whose cursor is
inside its buffer, when it returns: it returns its size, advances the cursor
by it, and leaves a buffer made of the old bytes before the cursor, the bytes
written and the old bytes behind them. -/
theorem BytesIO.write_some (d : BytesIOPrivate) (D : List Byte) (k r : Int)
    (d2 : BytesIOPrivate) (h : BytesIO.write d D k = some (r, d2)) (hc : 0 ≤ d.pos)
    (hc2 : d.pos ≤ (d.buf.length : Int)) (hk : 0 ≤ k) :
    r = k ∧ d2.pos = d.pos + k ∧
      d2.buf = d.buf.take d.pos.toNat ++ D.take k.toNat ++ d.buf.drop (d.pos + k).toNat := by
  obtain ⟨hfit, hD⟩ := BytesIO.write_fits d D k _ h hc hk
  rw [ BytesIO.write_eq d D k hc hk hD hfit] at h
  simp only [Option.some.injEq, Prod.mk.injEq] at h
  obtain ⟨h1, h2⟩ := h
  subst h2
  refine ⟨h1.symm, rfl, ?_⟩
  simp only
  rw [writtenBuf_no_gap _ _ _ _ (by omega)]
  have : (d.pos + k).toNat = d.pos.toNat + k.toNat := by omega
  rw [this]

/-- A call with a non-negative size keeps the cursor inside the buffer. -/
theorem BytesIO.read_inside (d : BytesIOPrivate) (data : List Byte) (n r : Int)
    (data1 : List Byte) (d1 : BytesIOPrivate)
    (h : BytesIO.read d data n = some (r, data1, d1)) (hc : 0 ≤ d.pos)
    (hc2 : d.pos ≤ (d.buf.length : Int)) :
    0 ≤ d1.pos ∧ d1.pos ≤ (d1.buf.length : Int) := by
  obtain ⟨hr, h0, hd⟩ := BytesIO.read_some d data n r data1 d1 h
  have h1 : r ≤ max ((d.buf.length : Int) - d.pos) 0 := by rw [hr]; exact min_le_left _ _
  rw [max_eq_left (by omega)] at h1
  subst hd
  simp only
  omega

theorem BytesIO.write_inside (d : BytesIOPrivate) (D : List Byte) (k r : Int)
    (d2 : BytesIOPrivate) (h : BytesIO.write d D k = some (r, d2)) (hc : 0 ≤ d.pos)
    (hc2 : d.pos ≤ (d.buf.length : Int)) (hk : 0 ≤ k) :
    0 ≤ d2.pos ∧ d2.pos ≤ (d2.buf.length : Int) ∧
      (d2.buf.length : Int) ≤ (d.buf.length : Int) + k := by
  obtain ⟨hfit, hD⟩ := BytesIO.write_fits d D k _ h hc hk
  obtain ⟨_, h2, h3⟩ := BytesIO.write_some d D k r d2 h hc hc2 hk
  rw [h2, h3]
  simp only [List.length_append, List.length_take, List.length_drop]
  omega

/-- Calls with non-negative sizes keep the cursor of a memory stream inside
its buffer. -/
theorem BytesIO.run_inside : ∀ (ops : List BytesOp) (d d1 : BytesIOPrivate),
    (∀ op ∈ ops, 0 ≤ op.size) → 0 ≤ d.pos → d.pos ≤ (d.buf.length : Int) →
    BytesIO.run d ops = some d1 → 0 ≤ d1.pos ∧ d1.pos ≤ (d1.buf.length : Int) := by
  intro ops
  induction ops with
  | nil =>
    intro d d1 _ hc hc2 h
    simp only [ BytesIO.run, Option.some.injEq] at h
    subst h
    exact ⟨hc, hc2⟩
  | cons op ops ih =>
    intro d d1 hops hc hc2 h
    have hrest : ∀ op1 ∈ ops, 0 ≤ op1.size := fun op1 h1 => hops op1 (List.mem_cons_of_mem _ h1)
    have hop : 0 ≤ op.size := hops op (List.mem_cons_self _ _)
    cases op with
    | read data n =>
      simp only [ BytesIO.run] at h
      cases hr : BytesIO.read d data n with
      | none => rw [hr] at h; cases h
      | some p =>
        obtain ⟨r, data1, d2⟩ := p
        rw [hr] at h
        simp only at h
        obtain ⟨h1, h2⟩ := BytesIO.read_inside d data n r data1 d2 hr hc hc2
        exact ih d2 d1 hrest h1 h2 h
    | write data n =>
      simp only [ BytesIO.run] at h
      cases hw : BytesIO.write d data n with
      | none => rw [hw] at h; cases h
      | some p =>
        obtain ⟨r, d2⟩ := p
        rw [hw] at h
        simp only at h
        obtain ⟨h1, h2, _⟩ := BytesIO.write_inside d data n r d2 hw hc hc2 hop
        exact ih d2 d1 hrest h1 h2 h

/-- Calls with non-negative sizes that stay inside the caller's buffers run
without a fault as long as the buffer with everything written fits 32 bits. -/
theorem BytesIO.run_total : ∀ (ops : List BytesOp) (d : BytesIOPrivate),
    (∀ op ∈ ops, 0 ≤ op.size ∧ op.size ≤ (op.data.length : Int)) →
    0 ≤ d.pos → d.pos ≤ (d.buf.length : Int) →
    (d.buf.length : Int) + (ops.map BytesOp.written).sum ≤ INT32_MAX →
    ∃ d1, BytesIO.run d ops = some d1 := by
  intro ops
  induction ops with
  | nil => intro d _ _ _ _; exact ⟨d, rfl⟩
  | cons op ops ih =>
    intro d hops hc hc2 hcap
    have hrest : ∀ op1 ∈ ops, 0 ≤ op1.size ∧ op1.size ≤ (op1.data.length : Int) :=
      fun op1 h1 => hops op1 (List.mem_cons_of_mem _ h1)
    have hop := hops op (List.mem_cons_self _ _)
    have hsum : ∀ l : List BytesOp, (∀ op1 ∈ l, 0 ≤ op1.size) →
        0 ≤ (l.map BytesOp.written).sum := by
      intro l
      induction l with
      | nil => intro _; simp
      | cons a l ihl =>
        intro hl
        have ha := hl a (List.mem_cons_self _ _)
        have := ihl (fun op1 h1 => hl op1 (List.mem_cons_of_mem _ h1))
        simp only [List.map_cons, List.sum_cons]
        cases a with
        | read data n => simp only [BytesOp.written]; omega
        | write data n => simp only [BytesOp.written, BytesOp.size] at ha ⊢; omega
    have hs := hsum ops (fun op1 h1 => (hrest op1 h1).1)
    simp only [List.map_cons, List.sum_cons] at hcap
    cases op with
    | read data n =>
      simp only [BytesOp.size, BytesOp.data, BytesOp.written] at hop hcap
      have hmin : min (max ((d.buf.length : Int) - d.pos) 0) n ≤ n := min_le_right _ _
      have hr := BytesIO.read_eq d data n (by omega) hc (by omega) hop.1 (by omega)
      obtain ⟨h1, h2⟩ := BytesIO.read_inside d data n _ _ _ hr hc hc2
      simp only [ BytesIO.run, hr]
      exact ih _ hrest h1 h2 (by simp only; omega)
    | write data n =>
      simp only [BytesOp.size, BytesOp.data, BytesOp.written] at hop hcap
      have hw := BytesIO.write_eq d data n hc hop.1 hop.2 (by omega)
      obtain ⟨h1, h2, h3⟩ := BytesIO.write_inside d data n _ _ hw hc hc2 hop.1
      simp only [ BytesIO.run, hw]
      exact ih _ hrest h1 h2 (by omega)

/-- C18.  Starting from a stream constructed on any bytes `B` (the empty
sequence included), cursor 0, after any sequence of `read` and `write` calls
with non-negative sizes: the cursor satisfies `0 ≤ cursor ≤ buffer length`, and
a further `write` of a non-negative size leaves a buffer made of the old bytes
before the cursor, the bytes written and the old bytes behind them, so that no
gap of uninitialised bytes appears.  Such a sequence runs without a fault when
its calls stay inside the caller's buffers and the buffer with everything
written fits 32 bits. -/
theorem bytes_cursor_invariant (B : List Byte) (ops : List BytesOp)
    (hops : ∀ op ∈ ops, 0 ≤ op.size) :
    (∀ d, BytesIO.run ( BytesIO.ofBytes B) ops = some d →
      0 ≤ d.pos ∧ d.pos ≤ (d.buf.length : Int) ∧
      ∀ (D : List Byte) (k r : Int) (d2 : BytesIOPrivate), 0 ≤ k →
        BytesIO.write d D k = some (r, d2) →
        d2.buf = d.buf.take d.pos.toNat ++ D.take k.toNat ++ d.buf.drop (d.pos + k).toNat ∧
        0 ≤ d2.pos ∧ d2.pos ≤ (d2.buf.length : Int)) ∧
    ((∀ op ∈ ops, op.size ≤ (op.data.length : Int)) →
      (B.length : Int) + (ops.map BytesOp.written).sum ≤ INT32_MAX →
      ∃ d, BytesIO.run ( BytesIO.ofBytes B) ops = some d) := by
  constructor
  · intro d h
    obtain ⟨h1, h2⟩ := BytesIO.run_inside ops ( BytesIO.ofBytes B) d hops (le_refl _)
      (by simp [ BytesIO.ofBytes]) h
    refine ⟨h1, h2, ?_⟩
    intro D k r d2 hk hw
    obtain ⟨_, _, h3⟩ := BytesIO.write_some d D k r d2 hw h1 h2 hk
    obtain ⟨h4, h5, _⟩ := BytesIO.write_inside d D k r d2 hw h1 h2 hk
    exact ⟨h3, h4, h5⟩
  · intro hdata hcap
    exact BytesIO.run_total ops ( BytesIO.ofBytes B) (fun op h => ⟨hops op h, hdata op h⟩)
      (le_refl _) (by simp [ BytesIO.ofBytes]) hcap

/-- C18 at the stream `[1, 2, 3]` after a read of 2 bytes and a write of
`[9]`: the cursor is 3, inside the buffer `[1, 2, 9]`. -/
theorem bytes_cursor_invariant_witness :
    (0 : Int) ≤ 3 ∧ (3 : Int) ≤ (([1, 2, 9] : QByteArray).length : Int) ∧
    ∀ (D : List Byte) (k r : Int) (d2 : BytesIOPrivate), 0 ≤ k →
      BytesIO.write ⟨[1, 2, 9], 3⟩ D k = some (r, d2) →
      d2.buf = ([1, 2, 9] : QByteArray).take (3 : Int).toNat ++ D.take k.toNat
          ++ ([1, 2, 9] : QByteArray).drop ((3 : Int) + k).toNat ∧
      0 ≤ d2.pos ∧ d2.pos ≤ (d2.buf.length : Int) :=
  (bytes_cursor_invariant [1, 2, 3] [BytesOp.read [0, 0] 2, BytesOp.write [9] 1]
    (by decide)).1 ⟨[1, 2, 9], 3⟩ (by decide)

end QtNetworkNg
